import Mathlib

/-!
Verification of the netaddr range/CIDR algebra engine.

This file shallowly embeds the core data model and algorithms of the
repository (src/ip/address.rs, src/ip/range.rs, src/ip/network.rs,
src/ip/operations.rs, src/sets.rs) into Lean and proves or refutes the
frozen claims about them.

Machine integers (u32 / u128) are modelled as `Nat` with explicit
`% 2^w` reductions at every operation where the Rust release-mode
semantics wraps (arithmetic overflow, shift-amount masking, and the
silent discarding of shifted-out bits in `<<`).  Fallible operations
(`AddrResult`) are modelled with `Option`; the unbounded `while` loops
of `to_cidrs` / `largest_power_of_2_le` / `maxblock_ipv4` and the
worklist of `split_network_exclude` are modelled with an explicit fuel
parameter, `none` meaning the fuel ran out.  A loop that diverges in
the source is then exactly a loop that returns `none` for every fuel.
-/

namespace Netaddr

/-- Size of the IPv4 address space (`2^32`). -/
def W4 : Nat := 2 ^ 32

/-- Size of the IPv6 address space (`2^128`). -/
def W6 : Nat := 2 ^ 128

/-- An IP address: a version tag (the two-variant enum `IpAddr` of the
source, encoded as a `Bool` that is `true` for IPv6) together with the
numeric value of the address (`u32::from` / `u128::from` in the
source). -/
structure IPAddress where
  v6 : Bool
  val : Nat
deriving DecidableEq, Repr

namespace IPAddress

/-- Maximum representable value of the address's version
(`u32::MAX` / `u128::MAX`). -/
def maxVal (a : IPAddress) : Nat := if a.v6 then W6 - 1 else W4 - 1

/-- Bit width of the address's version. -/
def width (a : IPAddress) : Nat := if a.v6 then 128 else 32

/-- An address value fits in its version's width. -/
def WF (a : IPAddress) : Prop := a.val ≤ a.maxVal

instance (a : IPAddress) : Decidable a.WF := by unfold WF; infer_instance

/-- `IPAddress::ip_type` equality test (`ip_type() != ip_type()` in the
source compares the enum tags). -/
def sameType (a b : IPAddress) : Bool := a.v6 == b.v6

/-- The total order of `impl Ord for IPAddress`: version-major (IPv4
before IPv6), then numeric.  This is `<`. -/
def blt (a b : IPAddress) : Bool :=
  if a.v6 = b.v6 then decide (a.val < b.val) else b.v6

/-- The total order of `impl Ord for IPAddress`, non-strict (`<=`). -/
def ble (a b : IPAddress) : Bool :=
  if a.v6 = b.v6 then decide (a.val ≤ b.val) else b.v6

/-- `IPAddress::next`: successor, `None` at the top of the space. -/
def next (a : IPAddress) : Option IPAddress :=
  if a.val = a.maxVal then none else some ⟨a.v6, a.val + 1⟩

/-- `IPAddress::prev`: predecessor, `None` at the bottom of the space. -/
def prev (a : IPAddress) : Option IPAddress :=
  if a.val = 0 then none else some ⟨a.v6, a.val - 1⟩

/-- `std::cmp::max` on addresses (returns the first argument when the
second is strictly smaller, otherwise the second). -/
def maxA (a b : IPAddress) : IPAddress := if blt b a then a else b

/-- `std::cmp::min` on addresses. -/
def minA (a b : IPAddress) : IPAddress := if blt b a then b else a

end IPAddress

/-- `IPRange`: an inclusive `[start, stop]` pair of addresses
(the source field `end` is a Lean keyword, renamed `stop`). -/
structure IPRange where
  start : IPAddress
  stop : IPAddress
deriving DecidableEq, Repr

namespace IPRange

/-- Well-formedness enforced by `IPRange::new`: same version, ordered,
and both endpoints fit their width. -/
def WF (r : IPRange) : Prop :=
  r.start.v6 = r.stop.v6 ∧ r.start.val ≤ r.stop.val ∧
    r.start.WF ∧ r.stop.WF

instance (r : IPRange) : Decidable r.WF := by unfold WF; infer_instance

/-- `IPRange::new`: rejects mixed versions and `start > end`. -/
def new (s e : IPAddress) : Option IPRange :=
  if s.sameType e = false then none
  else if IPAddress.blt e s then none
  else some ⟨s, e⟩

/-- `IPRange::version` (4 or 6). -/
def version (r : IPRange) : Nat := if r.start.v6 then 6 else 4

/-- `IPRange::contains`. -/
def containsB (r : IPRange) (a : IPAddress) : Bool :=
  if r.start.sameType a = false then false
  else r.start.ble a && a.ble r.stop

/-- `IPRange::size` (`end - start + 1` in the width's wrapping
unsigned arithmetic, widened to `u128`). -/
def size (r : IPRange) : Nat :=
  match r.start.v6, r.stop.v6 with
  | false, false => (r.stop.val - r.start.val + 1) % W4
  | true, true => (r.stop.val - r.start.val + 1) % W6
  | _, _ => 0 -- unreachable in the source (constructor enforces same version)

/-- `IPRange::overlaps`. -/
def overlapsB (r o : IPRange) : Bool :=
  if r.start.sameType o.start = false then false
  else r.start.ble o.stop && o.start.ble r.stop

/-- `IPRange::intersection` (`IPRange::new(...).ok()`). -/
def intersection (r o : IPRange) : Option IPRange :=
  if r.overlapsB o = false then none
  else IPRange.new (IPAddress.maxA r.start o.start) (IPAddress.minA r.stop o.stop)

/-- The lexicographic `(start, end)` order of `impl Ord for IPRange`,
non-strict. -/
def rble (a b : IPRange) : Bool :=
  IPAddress.blt a.start b.start ||
    (a.start == b.start && IPAddress.ble a.stop b.stop)

/-- Same order as a decidable proposition, for `List.insertionSort`. -/
def rle (a b : IPRange) : Prop := rble a b = true

instance : DecidableRel rle := fun a b => by unfold rle; infer_instance

end IPRange

/-- `IPNetwork`: a (normalized) network address plus prefix length. -/
structure IPNetwork where
  network_address : IPAddress
  prefix_length : Nat
deriving DecidableEq, Repr

namespace IPNetwork

/-- `IPNetwork::normalize_network_address`: clear the host bits.  The
shift `32 - prefix` (resp. the guarded u128 mask) is only reached with
`prefix ≥ 1`, where it is in range. -/
def normalize_network_address (addr : IPAddress) (p : Nat) : IPAddress :=
  if addr.v6 then
    if p = 0 then ⟨true, 0⟩
    else
      let shift := 128 - p
      let mask := if shift ≥ 128 then 0 else (W6 - 1) - (2 ^ shift - 1)
      ⟨true, addr.val &&& mask⟩
  else
    if p = 0 then ⟨false, 0⟩
    else ⟨false, addr.val &&& (((W4 - 1) <<< (32 - p)) % W4)⟩

/-- `IPNetwork::new`: checks the prefix, then normalizes. -/
def new (addr : IPAddress) (p : Nat) : Option IPNetwork :=
  let maxp := if addr.v6 then 128 else 32
  if p > maxp then none
  else some ⟨normalize_network_address addr p, p⟩

/-- `IPNetwork::broadcast_address` (IPv4 only; the `1u32 << host_bits`
shift amount is masked `mod 32` in release mode, which matters exactly
at prefix 0). -/
def broadcast_address (n : IPNetwork) : Option IPAddress :=
  if n.network_address.v6 then none
  else
    some ⟨false,
      n.network_address.val ||| ((1 <<< ((32 - n.prefix_length) % 32)) % W4 - 1)⟩

/-- `IPNetwork::last_host` (for IPv6 the `1u128 << host_bits` shift
amount is masked `mod 128` in release mode). -/
def last_host (n : IPNetwork) : Option IPAddress :=
  if n.network_address.v6 then
    some ⟨true,
      n.network_address.val ||| ((1 <<< ((128 - n.prefix_length) % 128)) % W6 - 1)⟩
  else
    if n.prefix_length = 32 then some n.network_address
    else if n.prefix_length = 31 then n.broadcast_address
    else do
      let b ← n.broadcast_address
      b.prev

/-- `IPNetwork::contains` (for IPv4 the `(!0u32) << (32 - prefix)`
shift amount is masked `mod 32`; the IPv6 arm has an explicit
`shift >= 128` guard in the source). -/
def containsA (n : IPNetwork) (a : IPAddress) : Bool :=
  match n.network_address.v6, a.v6 with
  | false, false =>
    let mask := ((W4 - 1) <<< ((32 - n.prefix_length) % 32)) % W4
    (n.network_address.val &&& mask) == (a.val &&& mask)
  | true, true =>
    let shift := 128 - n.prefix_length
    let mask := if shift ≥ 128 then 0 else (W6 - 1) - (2 ^ shift - 1)
    (n.network_address.val &&& mask) == (a.val &&& mask)
  | _, _ => false

/-- `IPNetwork::contains_network`. -/
def contains_network (n o : IPNetwork) : Bool :=
  if n.network_address.sameType o.network_address = false then false
  else if n.prefix_length > o.prefix_length then false
  else n.containsA o.network_address

/-- `IPNetwork::overlaps`. -/
def overlapsN (n o : IPNetwork) : Bool :=
  if n.network_address.sameType o.network_address = false then false
  else
    n.contains_network o || o.contains_network n ||
      n.containsA o.network_address || o.containsA n.network_address

/-- `IPNetwork::subnets` (u32 index arithmetic wraps `mod 2^32`;
release-mode shift-amount masking as elsewhere). -/
def subnets (n : IPNetwork) (newp : Nat) : Option (List IPNetwork) :=
  let maxp := if n.network_address.v6 then 128 else 32
  if newp ≤ n.prefix_length ∨ newp > maxp then none
  else
    let cnt := 2 ^ (newp - n.prefix_length)
    if n.network_address.v6 then
      let step := (1 <<< ((128 - newp) % 128)) % W6
      (List.range cnt).mapM fun i =>
        IPNetwork.new ⟨true, (n.network_address.val + i * step) % W6⟩ newp
    else
      let step := (1 <<< ((32 - newp) % 32)) % W4
      (List.range cnt).mapM fun i =>
        IPNetwork.new ⟨false, (n.network_address.val + i * step) % W4⟩ newp

end IPNetwork

/-- The mathematical set of addresses denoted by a CIDR block: the
interval `[network_address, network_address + 2^(width-prefix) - 1]`
(used to state coverage claims; distinct from the source's
`IPNetwork::contains`, which is also embedded above). -/
def cidrCoversB (n : IPNetwork) (a : IPAddress) : Bool :=
  n.network_address.v6 == a.v6 &&
    decide (n.network_address.val ≤ a.val) &&
    decide (a.val < n.network_address.val +
      2 ^ ((if n.network_address.v6 then 128 else 32) - n.prefix_length))

/-! ### The `while` loops of `range.rs`, modelled with fuel

`power <<= 1` and `maxsize <<= 1` in the source silently discard the
shifted-out bit (Rust `<<` only checks the shift amount), so they wrap
`mod 2^w` in both debug and release mode; `maxsize - 1` is a wrapping
subtraction in release mode. -/

/-- Loop body of `IPRange::largest_power_of_2_le{,_u128}`:
`while power <= n { power <<= 1 } ; power >> 1`. -/
def lp2Loop (w n : Nat) : Nat → Nat → Option Nat
  | 0, _ => none
  | fuel + 1, power =>
    if power ≤ n then lp2Loop w n fuel ((power * 2) % 2 ^ w)
    else some (power / 2)

/-- `IPRange::largest_power_of_2_le` (u32). -/
def largest_power_of_2_le (fuel n : Nat) : Option Nat :=
  if n = 0 then some 0 else lp2Loop 32 n fuel 1

/-- `IPRange::largest_power_of_2_le_u128`. -/
def largest_power_of_2_le_u128 (fuel n : Nat) : Option Nat :=
  if n = 0 then some 0 else lp2Loop 128 n fuel 1

/-- Loop body of `IPRange::maxblock_ipv4`:
`while maxsize <= max_size && (address & (maxsize - 1)) == 0 { maxsize <<= 1 }`,
with `maxsize - 1` wrapping `mod 2^32`. -/
def maxblockLoop (address max_size : Nat) : Nat → Nat → Option Nat
  | 0, _ => none
  | fuel + 1, maxsize =>
    if maxsize ≤ max_size ∧ address &&& ((maxsize + W4 - 1) % W4) = 0 then
      maxblockLoop address max_size fuel ((maxsize * 2) % W4)
    else some (maxsize / 2)

/-- `IPRange::maxblock_ipv4`. -/
def maxblock_ipv4 (fuel address max_size : Nat) : Option Nat :=
  maxblockLoop address max_size fuel 1

/-- Structural helper for `trailing_zeros`: the fuel argument (any
value at least the input) makes the recursion structural. -/
def tzAux : Nat → Nat → Nat
  | 0, _ => 0
  | fuel + 1, n => if n % 2 = 1 ∨ n = 0 then 0 else tzAux fuel (n / 2) + 1

/-- `u32::trailing_zeros` (32 for the value 0). -/
def u32_trailing_zeros (n : Nat) : Nat :=
  if n = 0 then 32 else tzAux n n

/-- `u128::trailing_zeros` (128 for the value 0). -/
def u128_trailing_zeros (n : Nat) : Nat :=
  if n = 0 then 128 else tzAux n n

/-- The IPv4 loop of `IPRange::to_cidrs`.  `end - current + 1` is u32
arithmetic, wrapping exactly for the full-space range; `current +=
maxblock` wraps, guarded by the source's `if current == 0 break`. -/
def toCidrsV4Loop (stop : Nat) : Nat → Nat → List IPNetwork → Option (List IPNetwork)
  | 0, _, _ => none
  | fuel + 1, current, acc =>
    if current ≤ stop then do
      let maxsize ← maxblock_ipv4 fuel current ((stop - current + 1) % W4)
      let maxblock ← largest_power_of_2_le fuel maxsize
      let prefix_len := 32 - u32_trailing_zeros maxblock
      let network ← IPNetwork.new ⟨false, current⟩ prefix_len
      let acc := acc ++ [network]
      let current := (current + maxblock) % W4
      if current = 0 then some acc
      else toCidrsV4Loop stop fuel current acc
    else some acc

/-- The IPv6 loop of `IPRange::to_cidrs`, with the source's
"align to block boundary if needed" branch (`!(maxblock - 1)` is a
wrapping u128 complement-of-decrement). -/
def toCidrsV6Loop (stop : Nat) : Nat → Nat → List IPNetwork → Option (List IPNetwork)
  | 0, _, _ => none
  | fuel + 1, current, acc =>
    if current ≤ stop then do
      let remaining := (stop - current + 1) % W6
      let maxblock ← largest_power_of_2_le_u128 fuel remaining
      let prefix_len := 128 - u128_trailing_zeros maxblock
      let aligned_current := current &&& ((W6 - 1) - (maxblock + W6 - 1) % W6)
      if aligned_current ≠ current then do
        let smaller_block ← largest_power_of_2_le_u128 fuel (current - aligned_current)
        let smaller_prefix := 128 - u128_trailing_zeros smaller_block
        let network ← IPNetwork.new ⟨true, current⟩ smaller_prefix
        toCidrsV6Loop stop fuel ((current + smaller_block) % W6) (acc ++ [network])
      else do
        let network ← IPNetwork.new ⟨true, current⟩ prefix_len
        let acc := acc ++ [network]
        let current := (current + maxblock) % W6
        if current = 0 then some acc
        else toCidrsV6Loop stop fuel current acc
    else some acc

/-- `IPRange::to_cidrs`. -/
def IPRange.to_cidrs (fuel : Nat) (r : IPRange) : Option (List IPNetwork) :=
  match r.start.v6, r.stop.v6 with
  | false, false => toCidrsV4Loop r.stop.val fuel r.start.val []
  | true, true => toCidrsV6Loop r.stop.val fuel r.start.val []
  | _, _ => none -- unreachable in the source

/-- `cidrs_to_ranges` (free function of `range.rs`): network address
through broadcast (IPv4) / last host (IPv6). -/
def cidrs_to_ranges (cidrs : List IPNetwork) : Option (List IPRange) :=
  cidrs.mapM fun cidr => do
    let e ←
      if cidr.network_address.v6 then cidr.last_host
      else cidr.broadcast_address
    IPRange.new cidr.network_address e

/-! ### `merge_ranges` -/

/-- The left-to-right sweep of `merge_ranges` over one sorted
same-version partition, carrying the `current` accumulator. -/
def mergeSweep (current : IPRange) : List IPRange → Option (List IPRange)
  | [] => some [current]
  | r :: rest =>
    if r.start.ble current.stop || (current.stop.next == some r.start) then
      if current.stop.blt r.stop then do
        let c ← IPRange.new current.start r.stop
        mergeSweep c rest
      else mergeSweep current rest
    else do
      let l ← mergeSweep r rest
      some (current :: l)

/-- Sweep of one sorted partition (the source's
`if !partition.is_empty() { ... }` block: an empty partition
contributes nothing). -/
def sweepPartition : List IPRange → Option (List IPRange)
  | [] => some []
  | c :: rest => mergeSweep c rest

/-- `merge_ranges` (free function of `range.rs`).  `Vec::sort` by the
derived `Ord` is modelled with `List.insertionSort`; since ranges that
compare `Equal` under that `Ord` are structurally equal, every sort by
this order produces the same list. -/
def merge_ranges (ranges : List IPRange) : Option (List IPRange) :=
  if ranges.isEmpty then some []
  else do
    let m4 ← sweepPartition
      (List.insertionSort IPRange.rle (ranges.filter fun r => !r.start.v6))
    let m6 ← sweepPartition
      (List.insertionSort IPRange.rle (ranges.filter fun r => r.start.v6))
    some (List.insertionSort IPRange.rle (m4 ++ m6))

/-! ### `IPSet` (`sets.rs`)

A `BTreeSet<IPRange>` is modelled as the sorted duplicate-free list of
its elements in the derived `Ord` order; `insert` places an element at
its ordered position (a no-op when already present). -/

/-- `BTreeSet::insert`. -/
def btreeInsert (r : IPRange) : List IPRange → List IPRange
  | [] => [r]
  | x :: xs =>
    if r = x then x :: xs
    else if IPRange.rble r x then r :: x :: xs
    else x :: btreeInsert r xs

/-- An `IPSet`: its `BTreeSet<IPRange>` in iteration (sorted) order. -/
structure IPSet where
  ranges : List IPRange
deriving DecidableEq, Repr

namespace IPSet

/-- `IPSet::ranges_adjacent`: both successors must exist before either
direction of adjacency is admitted. -/
def ranges_adjacent (range1 range2 : IPRange) : Bool :=
  if range1.version ≠ range2.version then false
  else
    match range1.stop.next, range2.stop.next with
    | some next1, some next2 =>
      range2.start == next1 || range1.start == next2
    | _, _ => false

/-- `IPSet::add_range`: collect the existing ranges that overlap or
are adjacent to the new range, merge them with it, and re-insert. -/
def add_range (s : IPSet) (range : IPRange) : Option IPSet := do
  let hits := fun ex => ex.overlapsB range || ranges_adjacent ex range
  let overlapping := s.ranges.filter hits
  let remaining := s.ranges.filter fun ex => !hits ex
  let final ← merge_ranges (overlapping ++ [range])
  some ⟨final.foldl (fun acc r => btreeInsert r acc) remaining⟩

/-- Loop body of `IPSet::remove_range` for one existing range: keep it
when it does not overlap the removal range, otherwise emit the
surviving "before" and "after" sub-ranges; the `prev`/`next` failures
are the two error branches of the source. -/
def removeStep (range_to_remove : IPRange) (acc : List IPRange) (ex : IPRange) :
    Option (List IPRange) :=
  if ex.overlapsB range_to_remove = false then some (btreeInsert ex acc)
  else do
    let acc ←
      if IPAddress.blt ex.start range_to_remove.start then do
        let before_end ← range_to_remove.start.prev
        let before_range ← IPRange.new ex.start before_end
        some (btreeInsert before_range acc)
      else some acc
    if IPAddress.blt range_to_remove.stop ex.stop then do
      let after_start ← range_to_remove.stop.next
      let after_range ← IPRange.new after_start ex.stop
      some (btreeInsert after_range acc)
    else some acc

/-- `IPSet::remove_range`: split every overlapping range around the
removal range. -/
def remove_range (s : IPSet) (range_to_remove : IPRange) : Option IPSet := do
  let new_ranges ← s.ranges.foldlM (removeStep range_to_remove) []
  some ⟨new_ranges⟩

/-- `IPSet::from_range`. -/
def from_range (range : IPRange) : IPSet := ⟨[range]⟩

/-- `IPSet::size`: the sum of the ranges' sizes in u128 arithmetic. -/
def size (s : IPSet) : Nat :=
  s.ranges.foldl (fun acc r => (acc + r.size) % W6) 0

end IPSet

/-! ### CIDR operations (`operations.rs`) -/

/-- Iterator `min` over a non-empty address list (ties are identical
values under the derived `Ord`, so the fold direction is irrelevant). -/
def addr_min : List IPAddress → Option IPAddress
  | [] => none
  | x :: xs => some (xs.foldl (fun acc y => if IPAddress.blt y acc then y else acc) x)

/-- Iterator `max` over a non-empty address list. -/
def addr_max : List IPAddress → Option IPAddress
  | [] => none
  | x :: xs => some (xs.foldl (fun acc y => if IPAddress.blt acc y then y else acc) x)

/-- `u32::leading_zeros` / `u128::leading_zeros` are `width - bit
length`; the source only uses `width - (width - leading_zeros(x))`,
i.e. the bit length of `x`, computed here with structural fuel. -/
def bitLenAux : Nat → Nat → Nat
  | 0, _ => 0
  | fuel + 1, n => if n = 0 then 0 else bitLenAux fuel (n / 2) + 1

/-- Number of bits of `n` (`width - leading_zeros` in the source). -/
def bitLen (n : Nat) : Nat := bitLenAux n n

/-- `spanning_cidr`: `Ok(None)` for no addresses, a host route for
one address, otherwise the common-prefix network of min and max.  The
v4 netmask shift `(!0u32) << (32 - prefix_len)` has its shift amount
masked `mod 32` in release mode (reached at prefix 0); the v6 arm has
an explicit guard. -/
def spanning_cidr (addresses : List IPAddress) : Option (Option IPNetwork) :=
  match addresses with
  | [] => some none
  | [addr] =>
    (IPNetwork.new addr (if addr.v6 then 128 else 32)).map some
  | first :: _ =>
    if ¬ addresses.all (fun a => a.sameType first) then none
    else
      match addr_min addresses, addr_max addresses with
      | some mn, some mx =>
        if first.v6 then
          let xor := mn.val ^^^ mx.val
          let prefix_len := if xor = 0 then 128 else 128 - (128 - (128 - bitLen xor))
          let shift := 128 - prefix_len
          let network_mask := if shift ≥ 128 then 0 else (W6 - 1) - (2 ^ shift - 1)
          let network_addr := mn.val &&& network_mask
          (IPNetwork.new ⟨true, network_addr⟩ prefix_len).map some
        else
          let xor := mn.val ^^^ mx.val
          let prefix_len := if xor = 0 then 32 else 32 - (32 - (32 - bitLen xor))
          let network_mask := ((W4 - 1) <<< ((32 - prefix_len) % 32)) % W4
          let network_addr := mn.val &&& network_mask
          (IPNetwork.new ⟨false, network_addr⟩ prefix_len).map some
      | _, _ => none -- unreachable: the list is non-empty

/-- The worklist loop of `split_network_exclude` (`Vec::pop` takes the
most recently pushed element, so the queue is a stack). -/
def splitExcludeLoop (exclude : IPNetwork) :
    Nat → List IPNetwork → List IPNetwork → Option (List IPNetwork)
  | 0, _, _ => none
  | _ + 1, result, [] => some result
  | fuel + 1, result, current :: queue =>
    if current.overlapsN exclude = false then
      splitExcludeLoop exclude fuel (result ++ [current]) queue
    else if exclude.contains_network current then
      splitExcludeLoop exclude fuel result queue
    else if current.prefix_length ≥ exclude.prefix_length then
      if current ≠ exclude then
        splitExcludeLoop exclude fuel (result ++ [current]) queue
      else splitExcludeLoop exclude fuel result queue
    else do
      let subnets ← current.subnets (current.prefix_length + 1)
      if subnets.length = 2 then
        splitExcludeLoop exclude fuel result (subnets.reverse ++ queue)
      else splitExcludeLoop exclude fuel result queue

/-- `split_network_exclude`. -/
def split_network_exclude (fuel : Nat) (base exclude : IPNetwork) :
    Option (List IPNetwork) :=
  splitExcludeLoop exclude fuel [] [base]

/-- `cidr_exclude`. -/
def cidr_exclude (fuel : Nat) (base exclude : IPNetwork) :
    Option (List IPNetwork) :=
  if base.overlapsN exclude = false then some [base]
  else if exclude.contains_network base then some []
  else if base.contains_network exclude then
    split_network_exclude fuel base exclude
  else do
    let base_range ← IPRange.new base.network_address
      ((base.last_host).getD base.network_address)
    let exclude_range ← IPRange.new exclude.network_address
      ((exclude.last_host).getD exclude.network_address)
    match base_range.intersection exclude_range with
    | none => some []
    | some inter => do
      let part1 ←
        if IPAddress.blt base_range.start inter.start then do
          let before_end ← inter.start.prev
          let before_range ← IPRange.new base_range.start before_end
          before_range.to_cidrs fuel
        else some []
      let part2 ←
        if IPAddress.blt inter.stop base_range.stop then do
          let after_start ← inter.stop.next
          let after_range ← IPRange.new after_start base_range.stop
          after_range.to_cidrs fuel
        else some []
      some (part1 ++ part2)

/-- `cidr_merge`: networks to ranges, `merge_ranges`, back through
`to_cidrs`. -/
def cidr_merge (fuel : Nat) (cidrs : List IPNetwork) : Option (List IPNetwork) :=
  if cidrs.isEmpty then some []
  else do
    let ranges ← cidrs.mapM fun cidr => do
      let e ←
        if cidr.network_address.v6 then cidr.last_host
        else cidr.broadcast_address
      IPRange.new cidr.network_address e
    let merged ← merge_ranges ranges
    merged.foldlM (fun acc range => do
      let cs ← range.to_cidrs fuel
      some (acc ++ cs)) ([] : List IPNetwork)

/-! ### Spec-level notions used in the claims -/

/-- Two ranges of the same version are numerically adjacent: one's end
incremented by one is the other's start. -/
def AdjacentR (a b : IPRange) : Prop :=
  a.start.v6 = b.start.v6 ∧
    (a.stop.val + 1 = b.start.val ∨ b.stop.val + 1 = a.start.val)

instance (a b : IPRange) : Decidable (AdjacentR a b) := by
  unfold AdjacentR; infer_instance

/-- The netmask with `p` leading one bits in a `w`-bit word. -/
def maskFor (w p : Nat) : Nat := 2 ^ w - 2 ^ (w - p)

/-! ## Theorems -/

/-! ### C9: mixed-version queries answer negatively -/

/-- C9.  Mixed-version queries on `IPRange` are total and answer
negatively rather than erroring: for a range and an address of
different IP versions `contains` returns `false`, and for two ranges
of different IP versions `overlaps` returns `false` and `intersection`
returns `None`. -/
theorem mixed_version_queries_negative (r o : IPRange) (a : IPAddress)
    (ha : r.start.v6 ≠ a.v6) (ho : r.start.v6 ≠ o.start.v6) :
    r.containsB a = false ∧ r.overlapsB o = false ∧ r.intersection o = none := by
  have h1 : r.containsB a = false := by
    simp [IPRange.containsB, IPAddress.sameType, ha]
  have h2 : r.overlapsB o = false := by
    simp [IPRange.overlapsB, IPAddress.sameType, ho]
  exact ⟨h1, h2, by simp [IPRange.intersection, h2]⟩

/-- Witness for C9 at a concrete IPv4 range, IPv6 range and IPv6
address. -/
theorem mixed_version_queries_negative_witness :
    (⟨⟨false, 0⟩, ⟨false, 5⟩⟩ : IPRange).containsB ⟨true, 3⟩ = false ∧
      (⟨⟨false, 0⟩, ⟨false, 5⟩⟩ : IPRange).overlapsB ⟨⟨true, 0⟩, ⟨true, 5⟩⟩ = false ∧
      (⟨⟨false, 0⟩, ⟨false, 5⟩⟩ : IPRange).intersection ⟨⟨true, 0⟩, ⟨true, 5⟩⟩ = none :=
  mixed_version_queries_negative ⟨⟨false, 0⟩, ⟨false, 5⟩⟩ ⟨⟨true, 0⟩, ⟨true, 5⟩⟩
    ⟨true, 3⟩ (by decide) (by decide)

/-! ### C6: `IPSet::size` on the full IPv6 space -/

/-- C6 counterexample evidence.  For the set holding the full IPv6
range `::`–`ffff:...:ffff`, `size` wraps around to `0` (the u128
computation `end - start + 1` equals `2^128`), rather than returning a
saturating/clamped maximum as the claim requires. -/
theorem ipset_size_full_v6_wraps_to_zero :
    (IPSet.from_range ⟨⟨true, 0⟩, ⟨true, W6 - 1⟩⟩).size = 0 ∧ (0 : Nat) ≠ W6 - 1 := by
  constructor
  · decide
  · decide

/-! ### C1: `to_cidrs` coverage, IPv6 misalignment bug -/

/-- C1 counterexample evidence.  On the IPv6 range `[::6, ::14]`
(6 through 20), `to_cidrs` returns blocks whose union is *not* the
range: address `::8` lies in the range but in none of the returned
networks, and the first returned network `::4/126` covers address
`::4`, which is outside the range.  (The misaligned-`current` branch
computes `largest_power_of_2_le(current - aligned_current)`, which
need not divide `current`, and `IPNetwork::new` then silently clears
the host bits.) -/
theorem to_cidrs_ipv6_coverage_bug :
    IPRange.to_cidrs 100 ⟨⟨true, 6⟩, ⟨true, 20⟩⟩ =
      some [⟨⟨true, 4⟩, 126⟩, ⟨⟨true, 10⟩, 127⟩, ⟨⟨true, 12⟩, 126⟩,
        ⟨⟨true, 16⟩, 126⟩, ⟨⟨true, 20⟩, 128⟩] ∧
    (IPRange.containsB ⟨⟨true, 6⟩, ⟨true, 20⟩⟩ ⟨true, 8⟩ = true ∧
      ([⟨⟨true, 4⟩, 126⟩, ⟨⟨true, 10⟩, 127⟩, ⟨⟨true, 12⟩, 126⟩,
        ⟨⟨true, 16⟩, 126⟩, ⟨⟨true, 20⟩, 128⟩] : List IPNetwork).any
        (fun n => cidrCoversB n ⟨true, 8⟩) = false) ∧
    (cidrCoversB ⟨⟨true, 4⟩, 126⟩ ⟨true, 4⟩ = true ∧
      IPRange.containsB ⟨⟨true, 6⟩, ⟨true, 20⟩⟩ ⟨true, 4⟩ = false) := by
  refine ⟨by decide, ⟨by decide, by decide⟩, by decide, by decide⟩

/-! ### C2: `IPSet` adjacency invariant at the top of the space -/

/-- C2 counterexample evidence.  Starting from the singleton set
`{[255.255.255.0, 255.255.255.255]}` (which satisfies the invariant)
and adding the well-formed range `[255.255.254.0, 255.255.254.255]`,
`add_range` returns a set whose two ranges are numerically adjacent:
`ranges_adjacent` demands that *both* ranges have a successor of their
end, so an existing range ending at the maximum address is never
collected for coalescing. -/
theorem add_range_adjacency_invariant_bug :
    IPSet.add_range ⟨[⟨⟨false, W4 - 256⟩, ⟨false, W4 - 1⟩⟩]⟩
        ⟨⟨false, W4 - 512⟩, ⟨false, W4 - 257⟩⟩ =
      some ⟨[⟨⟨false, W4 - 512⟩, ⟨false, W4 - 257⟩⟩,
        ⟨⟨false, W4 - 256⟩, ⟨false, W4 - 1⟩⟩]⟩ ∧
    AdjacentR ⟨⟨false, W4 - 512⟩, ⟨false, W4 - 257⟩⟩
      ⟨⟨false, W4 - 256⟩, ⟨false, W4 - 1⟩⟩ ∧
    (⟨⟨false, W4 - 512⟩, ⟨false, W4 - 257⟩⟩ : IPRange).WF ∧
    (⟨⟨false, W4 - 256⟩, ⟨false, W4 - 1⟩⟩ : IPRange).WF := by
  refine ⟨by decide, by decide, by decide, by decide⟩

/-! ### C4: round trip of a single network through `to_cidrs` -/

/-- C4 counterexample evidence.  For `N = 0.0.0.0/0`,
`cidrs_to_ranges` produces the range `[0.0.0.0, 0.0.0.0]` — the
shift-amount masking in `broadcast_address` makes the broadcast of a
`/0` come out as `0.0.0.0` — and decomposing that range yields
`[0.0.0.0/32]`, not `[N]`. -/
theorem roundtrip_slash_zero_bug :
    cidrs_to_ranges [⟨⟨false, 0⟩, 0⟩] = some [⟨⟨false, 0⟩, ⟨false, 0⟩⟩] ∧
    IPRange.to_cidrs 10 ⟨⟨false, 0⟩, ⟨false, 0⟩⟩ = some [⟨⟨false, 0⟩, 32⟩] ∧
    (⟨⟨false, 0⟩, 32⟩ : IPNetwork) ≠ ⟨⟨false, 0⟩, 0⟩ := by
  refine ⟨by decide, by decide, by decide⟩

/-! ### Order and containment characterizations -/

theorem ble_same_iff {a b : IPAddress} (h : a.v6 = b.v6) :
    a.ble b = true ↔ a.val ≤ b.val := by
  simp [IPAddress.ble, h]

theorem blt_same_iff {a b : IPAddress} (h : a.v6 = b.v6) :
    a.blt b = true ↔ a.val < b.val := by
  simp [IPAddress.blt, h]

theorem maxVal_eq_of_tag {a b : IPAddress} (h : a.v6 = b.v6) :
    a.maxVal = b.maxVal := by
  simp [IPAddress.maxVal, h]

theorem containsB_iff {r : IPRange} (ht : r.start.v6 = r.stop.v6)
    (a : IPAddress) :
    r.containsB a = true ↔
      a.v6 = r.start.v6 ∧ r.start.val ≤ a.val ∧ a.val ≤ r.stop.val := by
  by_cases hav : a.v6 = r.start.v6
  · simp [IPRange.containsB, IPAddress.sameType, IPAddress.ble, hav, ← ht,
      and_assoc]
  · simp [IPRange.containsB, IPAddress.sameType, hav,
      fun h => hav (h : a.v6 = r.start.v6)]
    exact fun h => absurd h.symm hav

theorem overlapsB_comm (r o : IPRange) : r.overlapsB o = o.overlapsB r := by
  rcases r with ⟨⟨tr, sr⟩, ⟨ur, er⟩⟩
  rcases o with ⟨⟨tq, so⟩, ⟨uo, eo⟩⟩
  cases tr <;> cases tq <;> cases ur <;> cases uo <;>
    simp [IPRange.overlapsB, IPAddress.sameType, IPAddress.ble, Bool.and_comm]

instance : IsTotal IPRange IPRange.rle := ⟨by
  intro a b
  rcases a with ⟨⟨ta, sa⟩, ⟨ua, ea⟩⟩
  rcases b with ⟨⟨tb, sb⟩, ⟨ub, eb⟩⟩
  simp only [IPRange.rle, IPRange.rble, Bool.or_eq_true, Bool.and_eq_true,
    IPAddress.blt, IPAddress.ble, beq_iff_eq, IPRange.mk.injEq,
    IPAddress.mk.injEq]
  cases ta <;> cases tb <;> cases ua <;> cases ub <;> simp <;> omega⟩

instance : IsTrans IPRange IPRange.rle := ⟨by
  intro a b c
  rcases a with ⟨⟨ta, sa⟩, ⟨ua, ea⟩⟩
  rcases b with ⟨⟨tb, sb⟩, ⟨ub, eb⟩⟩
  rcases c with ⟨⟨tc, sc⟩, ⟨uc, ec⟩⟩
  simp only [IPRange.rle, IPRange.rble, Bool.or_eq_true, Bool.and_eq_true,
    IPAddress.blt, IPAddress.ble, beq_iff_eq, IPAddress.mk.injEq]
  cases ta <;> cases tb <;> cases tc <;> cases ua <;> cases ub <;> cases uc <;>
    simp <;> omega⟩

/-! ### The `merge_ranges` sweep -/

theorem exists_mem_cons_split {P : IPRange → Prop} {r : IPRange}
    {rest : List IPRange} :
    (∃ x ∈ r :: rest, P x) ↔ P r ∨ ∃ x ∈ rest, P x := by
  constructor
  · rintro ⟨x, hx, hP⟩
    rcases List.mem_cons.mp hx with h | h
    · exact Or.inl (h ▸ hP)
    · exact Or.inr ⟨x, h, hP⟩
  · rintro (h | ⟨x, hx, hP⟩)
    · exact ⟨r, List.mem_cons_self r rest, h⟩
    · exact ⟨x, List.mem_cons_of_mem r hx, hP⟩

/-- Correctness of the sweep of `merge_ranges` over one sorted
same-version partition: it succeeds and produces well-formed ranges of
that version, separated by gaps of at least one address (disjoint and
non-adjacent), whose union of addresses is exactly the accumulator's
union the remaining inputs'. -/
theorem mergeSweep_ok (t : Bool) (rest : List IPRange) : ∀ cur : IPRange,
    cur.WF → cur.start.v6 = t →
    (∀ r ∈ rest, r.WF ∧ r.start.v6 = t ∧ cur.start.val ≤ r.start.val) →
    List.Pairwise (fun a b => a.start.val ≤ b.start.val) rest →
    ∃ l, mergeSweep cur rest = some l ∧
      (∀ x ∈ l, x.WF ∧ x.start.v6 = t) ∧
      List.Pairwise (fun a b => a.stop.val + 1 < b.start.val) l ∧
      (∀ a : IPAddress, (∃ x ∈ l, x.containsB a = true) ↔
        (cur.containsB a = true ∨ ∃ x ∈ rest, x.containsB a = true)) ∧
      (∀ x ∈ l, cur.start.val ≤ x.start.val) := by
  induction rest with
  | nil =>
    intro cur hwf htag _ _
    refine ⟨[cur], rfl, ?_, by simp, ?_, ?_⟩
    · intro x hx
      rw [List.mem_singleton] at hx
      exact hx ▸ ⟨hwf, htag⟩
    · intro a; simp
    · intro x hx
      rw [List.mem_singleton] at hx
      exact hx ▸ le_refl _
  | cons r rest ih =>
    intro cur hwf htag hall hpw
    obtain ⟨hrWF, hrtag, hrlow⟩ := hall r (List.mem_cons_self r rest)
    have hall' : ∀ x ∈ rest, x.WF ∧ x.start.v6 = t ∧ r.start.val ≤ x.start.val := by
      intro x hx
      obtain ⟨h1, h2, _⟩ := hall x (List.mem_cons_of_mem r hx)
      exact ⟨h1, h2, (List.pairwise_cons.mp hpw).1 x hx⟩
    have hpw' := (List.pairwise_cons.mp hpw).2
    have hcst : cur.stop.v6 = t := hwf.1.symm.trans htag
    have hrst : r.stop.v6 = t := hrWF.1.symm.trans hrtag
    have hcs : cur.start.val ≤ cur.stop.val := hwf.2.1
    have hrs : r.start.val ≤ r.stop.val := hrWF.2.1
    cases hcond : (r.start.ble cur.stop || (cur.stop.next == some r.start)) with
    | true =>
      have hrs_le : r.start.val ≤ cur.stop.val + 1 := by
        have hcond2 := hcond
        simp only [Bool.or_eq_true] at hcond2
        rcases hcond2 with h | h
        · exact le_trans ((ble_same_iff (hrtag.trans hcst.symm)).mp h)
            (Nat.le_succ _)
        · rw [beq_iff_eq, IPAddress.next] at h
          by_cases hm : cur.stop.val = cur.stop.maxVal
          · rw [if_pos hm] at h; exact absurd h (by simp)
          · rw [if_neg hm] at h
            have := congrArg IPAddress.val (Option.some_injective _ h)
            simp at this
            omega
      cases hgt : cur.stop.blt r.stop with
      | true =>
        have hstoplt : cur.stop.val < r.stop.val :=
          (blt_same_iff (hcst.trans hrst.symm)).mp hgt
        have hnew : IPRange.new cur.start r.stop = some ⟨cur.start, r.stop⟩ := by
          rw [IPRange.new]
          have h1 : cur.start.sameType r.stop = true := by
            simp [IPAddress.sameType, htag, hrst]
          have h2 : IPAddress.blt r.stop cur.start = false := by
            rw [IPAddress.blt, if_pos (hrst.trans htag.symm)]
            simp; omega
          simp [h1, h2]
        have hwf' : (⟨cur.start, r.stop⟩ : IPRange).WF :=
          ⟨htag.trans hrst.symm, show cur.start.val ≤ r.stop.val by omega,
            hwf.2.2.1, hrWF.2.2.2⟩
        obtain ⟨l, hl, hWFl, hgap, hcov, hlow⟩ := ih ⟨cur.start, r.stop⟩ hwf' htag
          (by
            intro x hx
            obtain ⟨h1, h2, h3⟩ := hall' x hx
            exact ⟨h1, h2, le_trans hrlow h3⟩)
          hpw'
        refine ⟨l, ?_, hWFl, hgap, ?_, hlow⟩
        · show mergeSweep cur (r :: rest) = some l
          simpa [mergeSweep, hcond, hgt, hnew] using hl
        · intro a
          rw [hcov a, exists_mem_cons_split]
          have hmerge : (⟨cur.start, r.stop⟩ : IPRange).containsB a = true ↔
              (cur.containsB a = true ∨ r.containsB a = true) := by
            rw [@containsB_iff ⟨cur.start, r.stop⟩ (htag.trans hrst.symm) a,
              @containsB_iff cur hwf.1 a, @containsB_iff r hrWF.1 a]
            dsimp only
            by_cases hav : a.v6 = t
            · have e1 : a.v6 = cur.start.v6 := hav.trans htag.symm
              have e2 : a.v6 = r.start.v6 := hav.trans hrtag.symm
              constructor
              · rintro ⟨-, h1, h2⟩
                rcases le_or_lt a.val cur.stop.val with h | h
                · exact Or.inl ⟨e1, h1, h⟩
                · exact Or.inr ⟨e2, by omega, h2⟩
              · rintro (⟨-, h1, h2⟩ | ⟨-, h1, h2⟩)
                · exact ⟨e1, h1, by omega⟩
                · exact ⟨e1, by omega, h2⟩
            · constructor
              · rintro ⟨h0, -, -⟩
                exact absurd (h0.trans htag) hav
              · rintro (⟨h0, -, -⟩ | ⟨h0, -, -⟩)
                · exact absurd (h0.trans htag) hav
                · exact absurd (h0.trans hrtag) hav
          rw [hmerge]
          tauto
      | false =>
        have hstople : r.stop.val ≤ cur.stop.val := by
          have := (blt_same_iff (hcst.trans hrst.symm))
          rcases le_or_lt r.stop.val cur.stop.val with h | h
          · exact h
          · rw [hgt] at this; simp at this; omega
        obtain ⟨l, hl, hWFl, hgap, hcov, hlow⟩ := ih cur hwf htag
          (by
            intro x hx
            obtain ⟨h1, h2, h3⟩ := hall' x hx
            exact ⟨h1, h2, le_trans hrlow h3⟩)
          hpw'
        refine ⟨l, ?_, hWFl, hgap, ?_, hlow⟩
        · show mergeSweep cur (r :: rest) = some l
          simpa [mergeSweep, hcond, hgt] using hl
        · intro a
          rw [hcov a, exists_mem_cons_split]
          have hsub : r.containsB a = true → cur.containsB a = true := by
            rw [@containsB_iff cur hwf.1 a, @containsB_iff r hrWF.1 a]
            rintro ⟨h0, h1, h2⟩
            exact ⟨h0.trans (hrtag.trans htag.symm), by omega, by omega⟩
          tauto
    | false =>
      obtain ⟨hble, hnext⟩ := Bool.or_eq_false_iff.mp hcond
      have h1 : cur.stop.val < r.start.val := by
        have := ble_same_iff (hrtag.trans hcst.symm) (a := r.start) (b := cur.stop)
        rw [hble] at this; simp at this; omega
      have hm : ¬ cur.stop.val = cur.stop.maxVal := by
        intro hm
        have hb1 : r.stop.val ≤ r.stop.maxVal := hrWF.2.2.2
        have hb2 : r.stop.maxVal = cur.stop.maxVal :=
          maxVal_eq_of_tag (hrst.trans hcst.symm)
        omega
      have h2 : cur.stop.val + 2 ≤ r.start.val := by
        rw [IPAddress.next, if_neg hm] at hnext
        rcases le_or_lt (cur.stop.val + 2) r.start.val with h | h
        · exact h
        · exfalso
          have hrv : r.start.val = cur.stop.val + 1 := by omega
          have : r.start = ⟨cur.stop.v6, cur.stop.val + 1⟩ := by
            rcases r with ⟨⟨tv, sv⟩, rs⟩
            simp only at hrv ⊢
            simp only [IPAddress.mk.injEq]
            exact ⟨(hrtag.trans hcst.symm : tv = cur.stop.v6), hrv⟩
          rw [this] at hnext
          simp at hnext
      obtain ⟨l, hl, hWFl, hgap, hcov, hlow⟩ := ih r hrWF hrtag hall' hpw'
      refine ⟨cur :: l, ?_, ?_, ?_, ?_, ?_⟩
      · show mergeSweep cur (r :: rest) = some (cur :: l)
        simp [mergeSweep, hcond, hl]
      · intro x hx
        rcases List.mem_cons.mp hx with h | h
        · exact h ▸ ⟨hwf, htag⟩
        · exact hWFl x h
      · rw [List.pairwise_cons]
        refine ⟨?_, hgap⟩
        intro x hx
        have := hlow x hx
        omega
      · intro a
        rw [exists_mem_cons_split, exists_mem_cons_split, hcov a]
      · intro x hx
        rcases List.mem_cons.mp hx with h | h
        · exact h ▸ le_refl _
        · exact le_trans hrlow (hlow x h)

theorem rle_start_le {a b : IPRange} (h : a.start.v6 = b.start.v6)
    (hr : IPRange.rle a b) : a.start.val ≤ b.start.val := by
  simp only [IPRange.rle, IPRange.rble, Bool.or_eq_true, Bool.and_eq_true,
    beq_iff_eq] at hr
  rcases hr with hlt | ⟨heq, -⟩
  · exact le_of_lt ((blt_same_iff h).mp hlt)
  · rw [heq]

/-- Sweeping one whole partition of same-version well-formed ranges. -/
theorem sweepPartition_ok (t : Bool) (l : List IPRange)
    (hl : ∀ r ∈ l, r.WF ∧ r.start.v6 = t) :
    ∃ m, sweepPartition (List.insertionSort IPRange.rle l) = some m ∧
      (∀ x ∈ m, x.WF ∧ x.start.v6 = t) ∧
      List.Pairwise (fun a b => a.stop.val + 1 < b.start.val) m ∧
      (∀ a : IPAddress, (∃ x ∈ m, x.containsB a = true) ↔
        (∃ x ∈ l, x.containsB a = true)) := by
  cases hs : List.insertionSort IPRange.rle l with
  | nil =>
    have hlnil : l = [] := by
      have hperm := List.perm_insertionSort IPRange.rle l
      rw [hs] at hperm
      exact hperm.symm.eq_nil
    subst hlnil
    exact ⟨[], rfl, by simp, by simp, by simp⟩
  | cons c rest =>
    have hsort : List.Sorted IPRange.rle (c :: rest) := by
      rw [← hs]; exact List.sorted_insertionSort IPRange.rle l
    have hmem : ∀ x ∈ c :: rest, x.WF ∧ x.start.v6 = t := by
      intro x hx
      refine hl x ?_
      rw [← List.mem_insertionSort IPRange.rle, hs]
      exact hx
    obtain ⟨hcWF, hctag⟩ := hmem c (List.mem_cons_self c rest)
    have hall : ∀ r ∈ rest, r.WF ∧ r.start.v6 = t ∧ c.start.val ≤ r.start.val := by
      intro r hr
      obtain ⟨h1, h2⟩ := hmem r (List.mem_cons_of_mem c hr)
      exact ⟨h1, h2, rle_start_le (hctag.trans h2.symm)
        (List.rel_of_sorted_cons hsort r hr)⟩
    have hpw : List.Pairwise (fun a b => a.start.val ≤ b.start.val) rest := by
      refine List.Pairwise.imp_of_mem ?_ (List.pairwise_cons.mp hsort).2
      intro a b hma hmb hr
      obtain ⟨-, hta⟩ := hmem a (List.mem_cons_of_mem c hma)
      obtain ⟨-, htb⟩ := hmem b (List.mem_cons_of_mem c hmb)
      exact rle_start_le (hta.trans htb.symm) hr
    obtain ⟨m, hm, hWF, hgap, hcov, -⟩ := mergeSweep_ok t rest c hcWF hctag hall hpw
    refine ⟨m, hm, hWF, hgap, ?_⟩
    intro a
    rw [hcov a]
    constructor
    · rintro (h | ⟨x, hx, hP⟩)
      · refine ⟨c, ?_, h⟩
        rw [← List.mem_insertionSort IPRange.rle, hs]
        exact List.mem_cons_self c rest
      · refine ⟨x, ?_, hP⟩
        rw [← List.mem_insertionSort IPRange.rle, hs]
        exact List.mem_cons_of_mem c hx
    · rintro ⟨x, hx, hP⟩
      have hx2 : x ∈ c :: rest := by
        rw [← hs]
        exact (List.mem_insertionSort IPRange.rle).mpr hx
      rcases List.mem_cons.mp hx2 with h | h
      · exact Or.inl (h ▸ hP)
      · exact Or.inr ⟨x, h, hP⟩

theorem adjacentR_symm {a b : IPRange} (h : AdjacentR a b) : AdjacentR b a :=
  ⟨h.1.symm, h.2.symm⟩

theorem gap_not_overlap {a b : IPRange} (ha : a.WF) (hb : b.WF)
    (hg : a.stop.val + 1 < b.start.val) :
    a.overlapsB b = false ∧ ¬ AdjacentR a b := by
  constructor
  · by_cases htag : a.start.v6 = b.start.v6
    · rw [IPRange.overlapsB, if_neg (by simp [IPAddress.sameType, htag])]
      have : b.start.ble a.stop = false := by
        have hiff := ble_same_iff (a := b.start) (b := a.stop)
          (htag.symm.trans ha.1)
        rcases hbb : b.start.ble a.stop with hfoo | hfoo
        · rfl
        · rw [hbb] at hiff
          have := hiff.mp rfl
          omega
      simp [this]
    · rw [IPRange.overlapsB, if_pos (by simp [IPAddress.sameType, htag])]
  · rintro ⟨htag, hadj | hadj⟩
    · omega
    · have h1 := ha.2.1
      have h2 := hb.2.1
      omega

theorem cross_not_overlap {a b : IPRange} (ha : a.start.v6 = false)
    (hb : b.start.v6 = true) :
    a.overlapsB b = false ∧ ¬ AdjacentR a b := by
  constructor
  · rw [IPRange.overlapsB, if_pos (by simp [IPAddress.sameType, ha, hb])]
  · rintro ⟨htag, -⟩
    rw [ha, hb] at htag
    cases htag

/-- C5.  For every list of well-formed ranges, `merge_ranges` returns
`Ok` with a list that is sorted by `(start, end)`, pairwise
non-overlapping, has no two (necessarily same-version) numerically
adjacent members, consists of well-formed ranges, and covers exactly
the same addresses as the input.  In particular no wraparound
adjacency is ever introduced at the top of an address space (that
would change the covered set). -/
theorem merge_ranges_spec (ranges : List IPRange)
    (hwf : ∀ r ∈ ranges, r.WF) :
    ∃ l, merge_ranges ranges = some l ∧
      List.Sorted IPRange.rle l ∧
      List.Pairwise (fun a b => a.overlapsB b = false) l ∧
      List.Pairwise (fun a b => ¬ AdjacentR a b) l ∧
      (∀ a : IPAddress, (∃ r ∈ l, r.containsB a = true) ↔
        (∃ r ∈ ranges, r.containsB a = true)) ∧
      (∀ r ∈ l, r.WF) := by
  by_cases hemp : ranges.isEmpty
  · have : ranges = [] := by
      cases ranges with
      | nil => rfl
      | cons a b => simp [List.isEmpty] at hemp
    subst this
    exact ⟨[], by rw [merge_ranges]; rfl, by simp, by simp, by simp, by simp,
      by simp⟩
  · obtain ⟨m4, hm4, hWF4, hgap4, hcov4⟩ := sweepPartition_ok false
      (ranges.filter fun r => !r.start.v6)
      (by
        intro r hr
        rw [List.mem_filter] at hr
        exact ⟨hwf r hr.1, by simpa using hr.2⟩)
    obtain ⟨m6, hm6, hWF6, hgap6, hcov6⟩ := sweepPartition_ok true
      (ranges.filter fun r => r.start.v6)
      (by
        intro r hr
        rw [List.mem_filter] at hr
        exact ⟨hwf r hr.1, hr.2⟩)
    refine ⟨List.insertionSort IPRange.rle (m4 ++ m6), ?_, ?_, ?_, ?_, ?_, ?_⟩
    · rw [merge_ranges, if_neg hemp, hm4]
      show ((some m4).bind fun m4 => (sweepPartition _).bind fun m6 =>
        some (List.insertionSort IPRange.rle (m4 ++ m6))) = _
      rw [Option.some_bind, hm6, Option.some_bind]
    · exact List.sorted_insertionSort IPRange.rle (m4 ++ m6)
    · have hpair : List.Pairwise
          (fun a b => a.overlapsB b = false ∧ ¬ AdjacentR a b) (m4 ++ m6) := by
        rw [List.pairwise_append]
        refine ⟨?_, ?_, ?_⟩
        · refine List.Pairwise.imp_of_mem ?_ hgap4
          intro a b hma hmb hg
          exact gap_not_overlap (hWF4 a hma).1 (hWF4 b hmb).1 hg
        · refine List.Pairwise.imp_of_mem ?_ hgap6
          intro a b hma hmb hg
          exact gap_not_overlap (hWF6 a hma).1 (hWF6 b hmb).1 hg
        · intro a hma b hmb
          exact cross_not_overlap (hWF4 a hma).2 (hWF6 b hmb).2
      have hperm := (List.perm_insertionSort IPRange.rle (m4 ++ m6)).symm
      have hsym : ∀ {x y : IPRange},
          (x.overlapsB y = false ∧ ¬ AdjacentR x y) →
          (y.overlapsB x = false ∧ ¬ AdjacentR y x) := by
        intro x y ⟨h1, h2⟩
        exact ⟨(overlapsB_comm y x).trans h1, fun h => h2 (adjacentR_symm h)⟩
      exact ((hperm.pairwise_iff hsym).mp hpair).imp (fun h => h.1)
    · have hpair : List.Pairwise
          (fun a b => a.overlapsB b = false ∧ ¬ AdjacentR a b) (m4 ++ m6) := by
        rw [List.pairwise_append]
        refine ⟨?_, ?_, ?_⟩
        · refine List.Pairwise.imp_of_mem ?_ hgap4
          intro a b hma hmb hg
          exact gap_not_overlap (hWF4 a hma).1 (hWF4 b hmb).1 hg
        · refine List.Pairwise.imp_of_mem ?_ hgap6
          intro a b hma hmb hg
          exact gap_not_overlap (hWF6 a hma).1 (hWF6 b hmb).1 hg
        · intro a hma b hmb
          exact cross_not_overlap (hWF4 a hma).2 (hWF6 b hmb).2
      have hperm := (List.perm_insertionSort IPRange.rle (m4 ++ m6)).symm
      have hsym : ∀ {x y : IPRange},
          (x.overlapsB y = false ∧ ¬ AdjacentR x y) →
          (y.overlapsB x = false ∧ ¬ AdjacentR y x) := by
        intro x y ⟨h1, h2⟩
        exact ⟨(overlapsB_comm y x).trans h1, fun h => h2 (adjacentR_symm h)⟩
      exact ((hperm.pairwise_iff hsym).mp hpair).imp (fun h => h.2)
    · intro a
      constructor
      · rintro ⟨r, hr, hP⟩
        rw [List.mem_insertionSort, List.mem_append] at hr
        rcases hr with hr | hr
        · obtain ⟨x, hx, hxP⟩ := (hcov4 a).mp ⟨r, hr, hP⟩
          rw [List.mem_filter] at hx
          exact ⟨x, hx.1, hxP⟩
        · obtain ⟨x, hx, hxP⟩ := (hcov6 a).mp ⟨r, hr, hP⟩
          rw [List.mem_filter] at hx
          exact ⟨x, hx.1, hxP⟩
      · rintro ⟨r, hr, hP⟩
        cases ht : r.start.v6 with
        | false =>
          obtain ⟨x, hx, hxP⟩ := (hcov4 a).mpr
            ⟨r, List.mem_filter.mpr ⟨hr, by simp [ht]⟩, hP⟩
          refine ⟨x, ?_, hxP⟩
          rw [List.mem_insertionSort, List.mem_append]
          exact Or.inl hx
        | true =>
          obtain ⟨x, hx, hxP⟩ := (hcov6 a).mpr
            ⟨r, List.mem_filter.mpr ⟨hr, by simp [ht]⟩, hP⟩
          refine ⟨x, ?_, hxP⟩
          rw [List.mem_insertionSort, List.mem_append]
          exact Or.inr hx
    · intro r hr
      rw [List.mem_insertionSort, List.mem_append] at hr
      rcases hr with hr | hr
      · exact (hWF4 r hr).1
      · exact (hWF6 r hr).1

/-- Witness for C5 at a concrete input: two overlapping IPv4 ranges
and one IPv6 range. -/
theorem merge_ranges_spec_witness :
    ∃ l, merge_ranges [⟨⟨false, 3⟩, ⟨false, 9⟩⟩, ⟨⟨true, 5⟩, ⟨true, 7⟩⟩,
        ⟨⟨false, 0⟩, ⟨false, 5⟩⟩] = some l ∧
      List.Sorted IPRange.rle l ∧
      List.Pairwise (fun a b => a.overlapsB b = false) l ∧
      List.Pairwise (fun a b => ¬ AdjacentR a b) l ∧
      (∀ a : IPAddress, (∃ r ∈ l, r.containsB a = true) ↔
        (∃ r ∈ ([⟨⟨false, 3⟩, ⟨false, 9⟩⟩, ⟨⟨true, 5⟩, ⟨true, 7⟩⟩,
          ⟨⟨false, 0⟩, ⟨false, 5⟩⟩] : List IPRange), r.containsB a = true)) ∧
      (∀ r ∈ l, r.WF) :=
  merge_ranges_spec [⟨⟨false, 3⟩, ⟨false, 9⟩⟩, ⟨⟨true, 5⟩, ⟨true, 7⟩⟩,
    ⟨⟨false, 0⟩, ⟨false, 5⟩⟩] (by decide)

/-! ### Bit-level arithmetic for `spanning_cidr` -/

theorem bitLenAux_le_iff : ∀ fuel n k, n ≤ fuel →
    (bitLenAux fuel n ≤ k ↔ n < 2 ^ k) := by
  intro fuel
  induction fuel with
  | zero =>
    intro n k hn
    have h0 : n = 0 := Nat.le_zero.mp hn
    subst h0
    simp [bitLenAux, Nat.two_pow_pos]
  | succ f ih =>
    intro n k hn
    by_cases h0 : n = 0
    · subst h0
      simp [bitLenAux, Nat.two_pow_pos]
    · have hstep : bitLenAux (f + 1) n = bitLenAux f (n / 2) + 1 := by
        simp [bitLenAux, h0]
      rw [hstep]
      have hn2 : n / 2 ≤ f := by omega
      cases k with
      | zero => simp [Nat.lt_one_iff, h0]
      | succ k =>
        rw [Nat.add_le_add_iff_right, ih (n / 2) k hn2, pow_succ,
          Nat.div_lt_iff_lt_mul (by norm_num)]

theorem bitLen_le_iff (n k : Nat) : bitLen n ≤ k ↔ n < 2 ^ k :=
  bitLenAux_le_iff n n k (le_refl n)

theorem lt_two_pow_bitLen (n : Nat) : n < 2 ^ bitLen n :=
  (bitLen_le_iff n (bitLen n)).mp (le_refl _)

theorem xor_lt_two_pow_iff_div_eq (s : Nat) : ∀ a b : Nat,
    a ^^^ b < 2 ^ s ↔ a / 2 ^ s = b / 2 ^ s := by
  induction s with
  | zero =>
    intro a b
    simp [Nat.lt_one_iff, Nat.xor_eq_zero]
  | succ s ih =>
    intro a b
    rw [pow_succ, ← Nat.div_lt_iff_lt_mul (by norm_num), Nat.xor_div_two,
      ih (a / 2) (b / 2), Nat.div_div_eq_div_mul, Nat.div_div_eq_div_mul,
      Nat.mul_comm 2 (2 ^ s)]

theorem and_high_bits (w s a : Nat) (hs : s ≤ w) (ha : a < 2 ^ w) :
    a &&& (2 ^ w - 2 ^ s) = 2 ^ s * (a / 2 ^ s) := by
  have hsplit : 2 ^ w - 2 ^ s = 2 ^ s * (2 ^ (w - s) - 1) := by
    rw [Nat.mul_sub_one, ← pow_add]
    congr 2
    omega
  apply Nat.eq_of_testBit_eq
  intro i
  rw [Nat.testBit_and, hsplit, Nat.testBit_mul_pow_two, Nat.testBit_mul_pow_two]
  by_cases his : s ≤ i
  · have hdiv : a / 2 ^ s = a >>> s := (Nat.shiftRight_eq_div_pow a s).symm
    rw [hdiv, Nat.testBit_shiftRight, Nat.testBit_two_pow_sub_one]
    have hi : s + (i - s) = i := by omega
    rw [hi]
    by_cases hiw : i < w
    · simp [his, show i - s < w - s by omega]
    · have hfa : a.testBit i = false :=
        Nat.testBit_lt_two_pow (lt_of_lt_of_le ha
          (Nat.pow_le_pow_right (by norm_num) (by omega)))
      simp [hfa, his, show ¬ (i - s < w - s) by omega]
  · simp [his]

theorem mask_shift_eq (w s : Nat) (h : s < w) :
    ((2 ^ w - 1) <<< s) % 2 ^ w = 2 ^ w - 2 ^ s := by
  rw [Nat.shiftLeft_eq]
  have hBA : 2 ^ s ≤ 2 ^ w := Nat.pow_le_pow_right (by norm_num) (le_of_lt h)
  have hB1 : 1 ≤ 2 ^ s := Nat.one_le_two_pow
  have hA1 : 1 ≤ 2 ^ w := Nat.one_le_two_pow
  have hAB : 2 ^ w ≤ 2 ^ w * 2 ^ s := Nat.le_mul_of_pos_right _ (by omega)
  have hsplit : (2 ^ w - 1) * 2 ^ s =
      2 ^ w * (2 ^ s - 1) + (2 ^ w - 2 ^ s) := by
    rw [Nat.sub_one_mul, Nat.mul_sub_one]
    omega
  rw [hsplit, Nat.mul_add_mod, Nat.mod_eq_of_lt (by omega)]

/-! ### `min`/`max` folds over an address list -/

theorem addr_min_spec (x : IPAddress) (xs : List IPAddress)
    (huni : ∀ a ∈ x :: xs, a.v6 = x.v6) :
    ∃ mn, addr_min (x :: xs) = some mn ∧ mn ∈ x :: xs ∧ mn.v6 = x.v6 ∧
      ∀ a ∈ x :: xs, mn.val ≤ a.val := by
  have main : ∀ (ys : List IPAddress) (acc : IPAddress), acc.v6 = x.v6 →
      (∀ a ∈ ys, a.v6 = x.v6) →
      (ys.foldl (fun acc y => if IPAddress.blt y acc then y else acc) acc = acc ∨
        ys.foldl (fun acc y => if IPAddress.blt y acc then y else acc) acc ∈ ys) ∧
      (ys.foldl (fun acc y => if IPAddress.blt y acc then y else acc) acc).v6 = x.v6 ∧
      (ys.foldl (fun acc y => if IPAddress.blt y acc then y else acc) acc).val ≤ acc.val ∧
      ∀ a ∈ ys,
        (ys.foldl (fun acc y => if IPAddress.blt y acc then y else acc) acc).val ≤ a.val := by
    intro ys
    induction ys with
    | nil => exact fun acc hacc _ => ⟨Or.inl rfl, hacc, le_refl _, by simp⟩
    | cons y ys ih =>
      intro acc hacc hall
      have hy : y.v6 = x.v6 := hall y (List.mem_cons_self y ys)
      have hall' : ∀ a ∈ ys, a.v6 = x.v6 :=
        fun a ha => hall a (List.mem_cons_of_mem y ha)
      rw [List.foldl_cons]
      cases hb : IPAddress.blt y acc with
      | true =>
        have hlt : y.val < acc.val := (blt_same_iff (hy.trans hacc.symm)).mp hb
        obtain ⟨hmem, htag, hle, hmin⟩ := ih y hy hall'
        rw [if_pos rfl]
        refine ⟨?_, htag, by omega, ?_⟩
        · rcases hmem with h | h
          · refine Or.inr ?_
            rw [h]
            exact List.mem_cons_self y ys
          · exact Or.inr (List.mem_cons_of_mem y h)
        · intro a ha
          rcases List.mem_cons.mp ha with h | h
          · subst h; exact hle
          · exact hmin a h
      | false =>
        have hge : acc.val ≤ y.val := by
          by_contra hc
          have hbt := (blt_same_iff (hy.trans hacc.symm)).mpr (by omega)
          rw [hb] at hbt
          simp at hbt
        obtain ⟨hmem, htag, hle, hmin⟩ := ih acc hacc hall'
        rw [if_neg (by simp)]
        refine ⟨?_, htag, hle, ?_⟩
        · rcases hmem with h | h
          · exact Or.inl h
          · exact Or.inr (List.mem_cons_of_mem y h)
        · intro a ha
          rcases List.mem_cons.mp ha with h | h
          · subst h; omega
          · exact hmin a h
  obtain ⟨hmem, htag, hle, hmin⟩ := main xs x rfl
    (fun a ha => huni a (List.mem_cons_of_mem x ha))
  refine ⟨_, rfl, ?_, htag, ?_⟩
  · rcases hmem with h | h
    · rw [h]
      exact List.mem_cons_self x xs
    · exact List.mem_cons_of_mem x h
  · intro a ha
    rcases List.mem_cons.mp ha with h | h
    · subst h; exact hle
    · exact hmin a h

theorem addr_max_spec (x : IPAddress) (xs : List IPAddress)
    (huni : ∀ a ∈ x :: xs, a.v6 = x.v6) :
    ∃ mx, addr_max (x :: xs) = some mx ∧ mx ∈ x :: xs ∧ mx.v6 = x.v6 ∧
      ∀ a ∈ x :: xs, a.val ≤ mx.val := by
  have main : ∀ (ys : List IPAddress) (acc : IPAddress), acc.v6 = x.v6 →
      (∀ a ∈ ys, a.v6 = x.v6) →
      (ys.foldl (fun acc y => if IPAddress.blt acc y then y else acc) acc = acc ∨
        ys.foldl (fun acc y => if IPAddress.blt acc y then y else acc) acc ∈ ys) ∧
      (ys.foldl (fun acc y => if IPAddress.blt acc y then y else acc) acc).v6 = x.v6 ∧
      acc.val ≤ (ys.foldl (fun acc y => if IPAddress.blt acc y then y else acc) acc).val ∧
      ∀ a ∈ ys,
        a.val ≤ (ys.foldl (fun acc y => if IPAddress.blt acc y then y else acc) acc).val := by
    intro ys
    induction ys with
    | nil => exact fun acc hacc _ => ⟨Or.inl rfl, hacc, le_refl _, by simp⟩
    | cons y ys ih =>
      intro acc hacc hall
      have hy : y.v6 = x.v6 := hall y (List.mem_cons_self y ys)
      have hall' : ∀ a ∈ ys, a.v6 = x.v6 :=
        fun a ha => hall a (List.mem_cons_of_mem y ha)
      rw [List.foldl_cons]
      cases hb : IPAddress.blt acc y with
      | true =>
        have hlt : acc.val < y.val := (blt_same_iff (hacc.trans hy.symm)).mp hb
        obtain ⟨hmem, htag, hle, hmax⟩ := ih y hy hall'
        rw [if_pos rfl]
        refine ⟨?_, htag, by omega, ?_⟩
        · rcases hmem with h | h
          · refine Or.inr ?_
            rw [h]
            exact List.mem_cons_self y ys
          · exact Or.inr (List.mem_cons_of_mem y h)
        · intro a ha
          rcases List.mem_cons.mp ha with h | h
          · subst h; exact hle
          · exact hmax a h
      | false =>
        have hge : y.val ≤ acc.val := by
          by_contra hc
          have hbt := (blt_same_iff (hacc.trans hy.symm)).mpr (by omega)
          rw [hb] at hbt
          simp at hbt
        obtain ⟨hmem, htag, hle, hmax⟩ := ih acc hacc hall'
        rw [if_neg (by simp)]
        refine ⟨?_, htag, hle, ?_⟩
        · rcases hmem with h | h
          · exact Or.inl h
          · exact Or.inr (List.mem_cons_of_mem y h)
        · intro a ha
          rcases List.mem_cons.mp ha with h | h
          · subst h; omega
          · exact hmax a h
  obtain ⟨hmem, htag, hle, hmax⟩ := main xs x rfl
    (fun a ha => huni a (List.mem_cons_of_mem x ha))
  refine ⟨_, rfl, ?_, htag, ?_⟩
  · rcases hmem with h | h
    · rw [h]
      exact List.mem_cons_self x xs
    · exact List.mem_cons_of_mem x h
  · intro a ha
    rcases List.mem_cons.mp ha with h | h
    · subst h; exact hle
    · exact hmax a h

/-- Core numeric facts behind `spanning_cidr`: writing `s` for the
bit length of `min XOR max`, the masked minimum is the base of an
aligned block of `2^s` addresses containing every value between `min`
and `max`, and no finer-grained aligned block contains both. -/
theorem span_core (w mnv mxv : Nat) (hmn : mnv < 2 ^ w) (hmx : mxv < 2 ^ w) :
    bitLen (mnv ^^^ mxv) ≤ w ∧
    (∀ av, mnv ≤ av → av ≤ mxv →
      (mnv &&& (2 ^ w - 2 ^ bitLen (mnv ^^^ mxv))) ≤ av ∧
        av < (mnv &&& (2 ^ w - 2 ^ bitLen (mnv ^^^ mxv))) +
          2 ^ bitLen (mnv ^^^ mxv)) ∧
    (∀ q A, q ≤ w → 2 ^ (w - q) ∣ A → A ≤ mnv → mnv < A + 2 ^ (w - q) →
      A ≤ mxv → mxv < A + 2 ^ (w - q) → q ≤ w - bitLen (mnv ^^^ mxv)) := by
  have hsw : bitLen (mnv ^^^ mxv) ≤ w :=
    (bitLen_le_iff _ w).mpr (Nat.xor_lt_two_pow hmn hmx)
  have hxors : mnv ^^^ mxv < 2 ^ bitLen (mnv ^^^ mxv) := lt_two_pow_bitLen _
  have hdiv : mnv / 2 ^ bitLen (mnv ^^^ mxv) = mxv / 2 ^ bitLen (mnv ^^^ mxv) :=
    (xor_lt_two_pow_iff_div_eq _ mnv mxv).mp hxors
  have hand : mnv &&& (2 ^ w - 2 ^ bitLen (mnv ^^^ mxv)) =
      2 ^ bitLen (mnv ^^^ mxv) * (mnv / 2 ^ bitLen (mnv ^^^ mxv)) :=
    and_high_bits w _ mnv hsw hmn
  refine ⟨hsw, ?_, ?_⟩
  · intro av h1 h2
    have hd1 : mnv / 2 ^ bitLen (mnv ^^^ mxv) ≤ av / 2 ^ bitLen (mnv ^^^ mxv) :=
      Nat.div_le_div_right h1
    have hd2 : av / 2 ^ bitLen (mnv ^^^ mxv) ≤ mxv / 2 ^ bitLen (mnv ^^^ mxv) :=
      Nat.div_le_div_right h2
    have hdeq : av / 2 ^ bitLen (mnv ^^^ mxv) = mnv / 2 ^ bitLen (mnv ^^^ mxv) := by
      omega
    have hm := Nat.div_add_mod av (2 ^ bitLen (mnv ^^^ mxv))
    have hmo : av % 2 ^ bitLen (mnv ^^^ mxv) < 2 ^ bitLen (mnv ^^^ mxv) :=
      Nat.mod_lt _ (Nat.two_pow_pos _)
    rw [hand]
    rw [hdeq] at hm
    omega
  · intro q A hq hdvd hA1 hA2 hA3 hA4
    obtain ⟨k, hk⟩ := hdvd
    have hq1 : mnv / 2 ^ (w - q) = k := by
      apply Nat.div_eq_of_lt_le
      · rw [Nat.mul_comm, ← hk]
        exact hA1
      · rw [Nat.succ_mul, Nat.mul_comm k, ← hk]
        exact hA2
    have hq2 : mxv / 2 ^ (w - q) = k := by
      apply Nat.div_eq_of_lt_le
      · rw [Nat.mul_comm, ← hk]
        exact hA3
      · rw [Nat.succ_mul, Nat.mul_comm k, ← hk]
        exact hA4
    have hxlt : mnv ^^^ mxv < 2 ^ (w - q) :=
      (xor_lt_two_pow_iff_div_eq _ _ _).mpr (hq1.trans hq2.symm)
    have := (bitLen_le_iff (mnv ^^^ mxv) (w - q)).mpr hxlt
    omega

/-! ### Divergence of the block-size loops

`power <<= 1` silently wraps to `0` once `power = 2^(w-1)`, and the
loop guard `power <= n` (resp. the alignment guard at `address = 0`)
then holds forever: the loop never exits, whatever the fuel. -/

theorem lp2Loop_zero (w n : Nat) : ∀ fuel, lp2Loop w n fuel 0 = none := by
  intro fuel
  induction fuel with
  | zero => rfl
  | succ f ih => simpa [lp2Loop] using ih

theorem lp2Loop_pow_none (w n : Nat) (hw : 1 ≤ w) (hn : 2 ^ (w - 1) ≤ n) :
    ∀ fuel k, k ≤ w - 1 → lp2Loop w n fuel (2 ^ k) = none := by
  intro fuel
  induction fuel with
  | zero => intro k _; rfl
  | succ f ih =>
    intro k hk
    have hle : 2 ^ k ≤ n :=
      le_trans (Nat.pow_le_pow_right (by norm_num) hk) hn
    rcases Nat.lt_or_ge k (w - 1) with h | h
    · have hmod : (2 ^ k * 2) % 2 ^ w = 2 ^ (k + 1) := by
        rw [← pow_succ]
        exact Nat.mod_eq_of_lt (Nat.pow_lt_pow_right one_lt_two (by omega))
      simp only [lp2Loop, hle, if_pos, hmod]
      exact ih (k + 1) (by omega)
    · have hkw : k = w - 1 := le_antisymm hk h
      have hmod : (2 ^ k * 2) % 2 ^ w = 0 := by
        rw [← pow_succ, hkw]
        have hw1 : w - 1 + 1 = w := by omega
        rw [hw1, Nat.mod_self]
      simp only [lp2Loop, hle, if_pos, hmod]
      exact lp2Loop_zero w n f

theorem largest_power_of_2_le_u128_half_none :
    ∀ fuel, largest_power_of_2_le_u128 fuel (2 ^ 127) = none := by
  intro fuel
  unfold largest_power_of_2_le_u128
  rw [if_neg (by positivity)]
  simpa using lp2Loop_pow_none 128 (2 ^ 127) (by norm_num) (le_refl _) fuel 0
    (by norm_num)

theorem maxblockLoop_zero_addr_zero (ms : Nat) :
    ∀ fuel, maxblockLoop 0 ms fuel 0 = none := by
  intro fuel
  induction fuel with
  | zero => rfl
  | succ f ih => simpa [maxblockLoop] using ih

theorem maxblockLoop_pow_none (ms : Nat) (hms : 2 ^ 31 ≤ ms) :
    ∀ fuel k, k ≤ 31 → maxblockLoop 0 ms fuel (2 ^ k) = none := by
  intro fuel
  induction fuel with
  | zero => intro k _; rfl
  | succ f ih =>
    intro k hk
    have hle : 2 ^ k ≤ ms :=
      le_trans (Nat.pow_le_pow_right (by norm_num) hk) hms
    rcases Nat.lt_or_ge k 31 with h | h
    · have hmod : (2 ^ k * 2) % W4 = 2 ^ (k + 1) := by
        rw [← pow_succ]
        exact Nat.mod_eq_of_lt (Nat.pow_lt_pow_right one_lt_two (by omega))
      simp only [maxblockLoop, hle, Nat.zero_and, if_pos, and_true, true_and, hmod]
      exact ih (k + 1) (by omega)
    · have hkw : k = 31 := le_antisymm hk h
      have hmod : (2 ^ k * 2) % W4 = 0 := by
        rw [← pow_succ, hkw]; decide
      simp only [maxblockLoop, hle, Nat.zero_and, if_pos, and_true, true_and, hmod]
      exact maxblockLoop_zero_addr_zero ms f

theorem maxblock_ipv4_half_none :
    ∀ fuel, maxblock_ipv4 fuel 0 (2 ^ 31) = none := by
  intro fuel
  unfold maxblock_ipv4
  simpa using maxblockLoop_pow_none (2 ^ 31) (le_refl _) fuel 0 (by norm_num)

/-- `to_cidrs` never returns on the IPv4 half-space range
`[0.0.0.0, 127.255.255.255]`. -/
theorem to_cidrs_half_v4_none :
    ∀ fuel, IPRange.to_cidrs fuel ⟨⟨false, 0⟩, ⟨false, 2 ^ 31 - 1⟩⟩ = none := by
  intro fuel
  cases fuel with
  | zero => rfl
  | succ f =>
    show toCidrsV4Loop (2 ^ 31 - 1) (f + 1) 0 [] = none
    have hrem : (2 ^ 31 - 1 - 0 + 1) % W4 = 2 ^ 31 := by decide
    simp only [toCidrsV4Loop, hrem, if_pos, Nat.zero_le, maxblock_ipv4_half_none f,
      Option.bind_none]
    rfl

/-! ### C3: termination of `to_cidrs` -/

/-- C3 counterexample evidence.  The well-formed IPv6 range
`[::, 7fff:ffff:ffff:ffff:ffff:ffff:ffff:ffff]` (the lower half of the
space, `2^127` addresses) makes `to_cidrs` diverge: the first
`largest_power_of_2_le_u128(2^127)` call wraps `power` to `0` and
loops forever, so `to_cidrs` returns no answer for any fuel. -/
theorem to_cidrs_half_space_v6_diverges :
    (⟨⟨true, 0⟩, ⟨true, 2 ^ 127 - 1⟩⟩ : IPRange).WF ∧
      ∀ fuel, IPRange.to_cidrs fuel ⟨⟨true, 0⟩, ⟨true, 2 ^ 127 - 1⟩⟩ = none := by
  refine ⟨by decide, ?_⟩
  intro fuel
  cases fuel with
  | zero => rfl
  | succ f =>
    show toCidrsV6Loop (2 ^ 127 - 1) (f + 1) 0 [] = none
    have hrem : (2 ^ 127 - 1 - 0 + 1) % W6 = 2 ^ 127 := by decide
    simp only [toCidrsV6Loop, hrem, if_pos, Nat.zero_le,
      largest_power_of_2_le_u128_half_none f, Option.bind_none]
    rfl

/-! ### C8: `cidr_merge` after `cidr_exclude` -/

/-- C8 counterexample evidence.  With `base = 0.0.0.0/1` and
`exclude = 0.0.0.0/2` (a subnet of `base`), `cidr_exclude` returns
`[64.0.0.0/2]`, but re-merging `[64.0.0.0/2, 0.0.0.0/2]` never
returns: the merged range is the half space `[0.0.0.0,
127.255.255.255]`, on which `to_cidrs`'s `maxblock_ipv4` loop wraps
`maxsize` to `0` and spins forever.  So the combination does not yield
`[base]` for every valid pair. -/
theorem cidr_exclude_merge_roundtrip_diverges :
    (⟨⟨false, 0⟩, 1⟩ : IPNetwork).contains_network ⟨⟨false, 0⟩, 2⟩ = true ∧
    cidr_exclude 30 ⟨⟨false, 0⟩, 1⟩ ⟨⟨false, 0⟩, 2⟩ = some [⟨⟨false, 2 ^ 30⟩, 2⟩] ∧
    ∀ fuel, cidr_merge fuel [⟨⟨false, 2 ^ 30⟩, 2⟩, ⟨⟨false, 0⟩, 2⟩] = none := by
  refine ⟨by decide, by decide, ?_⟩
  intro fuel
  have key : cidr_merge fuel [⟨⟨false, 2 ^ 30⟩, 2⟩, ⟨⟨false, 0⟩, 2⟩] =
      ((IPRange.to_cidrs fuel ⟨⟨false, 0⟩, ⟨false, 2 ^ 31 - 1⟩⟩).bind
        fun cs => some ([] ++ cs)).bind (fun b => some b) := rfl
  rw [key, to_cidrs_half_v4_none fuel]
  rfl

/-! ### C10: `remove_range` is total -/

/-- C10.  `IPSet::remove_range` always returns `Ok` when the set's
ranges and the removal range are well-formed: in the overlap branch
the two versions agree, so `removal.start > existing.start` puts
`removal.start` strictly above the minimum address (its `prev` exists)
and `removal.end < existing.end` puts `removal.end` strictly below the
maximum address (its `next` exists); the sub-range constructions then
succeed.  The two error branches are unreachable. -/
theorem remove_range_total (s : IPSet) (rem : IPRange)
    (hs : ∀ r ∈ s.ranges, r.WF) (hrem : rem.WF) :
    ∃ s', IPSet.remove_range s rem = some s' := by
  have step : ∀ (acc : List IPRange) (ex : IPRange), ex.WF →
      ∃ acc', IPSet.removeStep rem acc ex = some acc' := by
    intro acc ex hex
    cases hov : ex.overlapsB rem with
    | false => exact ⟨btreeInsert ex acc, by simp [IPSet.removeStep, hov]⟩
    | true =>
      have htag : ex.start.v6 = rem.start.v6 := by
        by_contra hne
        rw [IPRange.overlapsB] at hov
        simp [IPAddress.sameType, hne] at hov
      have htag2 : ex.stop.v6 = rem.start.v6 := hex.1.symm.trans htag
      have htag3 : rem.stop.v6 = rem.start.v6 := hrem.1.symm
      have hexstop : ex.stop.val ≤ ex.stop.maxVal := hex.2.2.2
      cases h1 : IPAddress.blt ex.start rem.start with
      | true =>
        have hlt : ex.start.val < rem.start.val := by
          rw [IPAddress.blt] at h1
          simpa [htag] using h1
        have hne0 : ¬ rem.start.val = 0 := by omega
        have hprev : rem.start.prev = some ⟨rem.start.v6, rem.start.val - 1⟩ := by
          simp [IPAddress.prev, hne0]
        have hnew : IPRange.new ex.start ⟨rem.start.v6, rem.start.val - 1⟩ =
            some ⟨ex.start, ⟨rem.start.v6, rem.start.val - 1⟩⟩ := by
          rw [IPRange.new]
          simp only [IPAddress.sameType, IPAddress.blt, htag]
          simp [show ¬ (rem.start.val - 1 < ex.start.val) by omega]
        cases h2 : IPAddress.blt rem.stop ex.stop with
        | true =>
          have hlt2 : rem.stop.val < ex.stop.val := by
            rw [IPAddress.blt] at h2
            simpa [htag2, htag3] using h2
          have hmax : rem.stop.maxVal = ex.stop.maxVal := by
            simp [IPAddress.maxVal, htag2, htag3]
          have hnemax : ¬ rem.stop.val = rem.stop.maxVal := by omega
          have hnext : rem.stop.next = some ⟨rem.stop.v6, rem.stop.val + 1⟩ := by
            simp [IPAddress.next, hnemax]
          have hnew2 : IPRange.new ⟨rem.stop.v6, rem.stop.val + 1⟩ ex.stop =
              some ⟨⟨rem.stop.v6, rem.stop.val + 1⟩, ex.stop⟩ := by
            rw [IPRange.new]
            simp only [IPAddress.sameType, IPAddress.blt, htag2, htag3]
            simp [show ¬ (ex.stop.val < rem.stop.val + 1) by omega]
          exact ⟨btreeInsert ⟨⟨rem.stop.v6, rem.stop.val + 1⟩, ex.stop⟩
              (btreeInsert ⟨ex.start, ⟨rem.start.v6, rem.start.val - 1⟩⟩ acc),
            by simp [IPSet.removeStep, hov, h1, h2, hprev, hnext, hnew, hnew2]⟩
        | false =>
          exact ⟨btreeInsert ⟨ex.start, ⟨rem.start.v6, rem.start.val - 1⟩⟩ acc,
            by simp [IPSet.removeStep, hov, h1, h2, hprev, hnew]⟩
      | false =>
        cases h2 : IPAddress.blt rem.stop ex.stop with
        | true =>
          have hlt2 : rem.stop.val < ex.stop.val := by
            rw [IPAddress.blt] at h2
            simpa [htag2, htag3] using h2
          have hmax : rem.stop.maxVal = ex.stop.maxVal := by
            simp [IPAddress.maxVal, htag2, htag3]
          have hnemax : ¬ rem.stop.val = rem.stop.maxVal := by omega
          have hnext : rem.stop.next = some ⟨rem.stop.v6, rem.stop.val + 1⟩ := by
            simp [IPAddress.next, hnemax]
          have hnew2 : IPRange.new ⟨rem.stop.v6, rem.stop.val + 1⟩ ex.stop =
              some ⟨⟨rem.stop.v6, rem.stop.val + 1⟩, ex.stop⟩ := by
            rw [IPRange.new]
            simp only [IPAddress.sameType, IPAddress.blt, htag2, htag3]
            simp [show ¬ (ex.stop.val < rem.stop.val + 1) by omega]
          exact ⟨btreeInsert ⟨⟨rem.stop.v6, rem.stop.val + 1⟩, ex.stop⟩ acc,
            by simp [IPSet.removeStep, hov, h1, h2, hnext, hnew2]⟩
        | false => exact ⟨acc, by simp [IPSet.removeStep, hov, h1, h2]⟩
  have main : ∀ (l : List IPRange), (∀ r ∈ l, r.WF) → ∀ acc,
      ∃ out, List.foldlM (IPSet.removeStep rem) acc l = some out := by
    intro l
    induction l with
    | nil => exact fun _ acc => ⟨acc, rfl⟩
    | cons ex rest ih =>
      intro h acc
      obtain ⟨acc', hacc'⟩ := step acc ex (h ex (by simp))
      obtain ⟨out, hout⟩ := ih (fun r hr => h r (by simp [hr])) acc'
      refine ⟨out, ?_⟩
      rw [List.foldlM_cons, hacc']
      simpa using hout
  obtain ⟨out, hout⟩ := main s.ranges hs []
  refine ⟨⟨out⟩, ?_⟩
  rw [IPSet.remove_range, hout]
  rfl

/-- Witness for C10: removing `[2, 5]` from the one-range set
`{[0, 10]}` succeeds. -/
theorem remove_range_total_witness :
    ∃ s', IPSet.remove_range ⟨[⟨⟨false, 0⟩, ⟨false, 10⟩⟩]⟩
      ⟨⟨false, 2⟩, ⟨false, 5⟩⟩ = some s' :=
  remove_range_total ⟨[⟨⟨false, 0⟩, ⟨false, 10⟩⟩]⟩ ⟨⟨false, 2⟩, ⟨false, 5⟩⟩
    (by decide) (by decide)

/-! ### C7: `spanning_cidr` -/

theorem v4_new_eval (mval s : Nat) (hs : s ≤ 32) :
    IPNetwork.new ⟨false, mval &&&
        (((W4 - 1) <<< ((32 - (32 - s)) % 32)) % W4)⟩ (32 - s) =
      some ⟨⟨false, mval &&& (2 ^ 32 - 2 ^ s)⟩, 32 - s⟩ := by
  by_cases hp : 32 - s = 0
  · have hs32 : s = 32 := by omega
    subst hs32
    norm_num
    rw [IPNetwork.new]
    simp only [IPNetwork.normalize_network_address]
    norm_num
  · have h32p : 32 - (32 - s) = s := by omega
    have hmod : (32 - (32 - s)) % 32 = s := by
      rw [h32p]
      exact Nat.mod_eq_of_lt (by omega)
    rw [hmod]
    have hmask : ((W4 - 1) <<< s) % W4 = 2 ^ 32 - 2 ^ s := by
      show ((2 ^ 32 - 1) <<< s) % 2 ^ 32 = _
      exact mask_shift_eq 32 s (by omega)
    rw [hmask]
    simp only [IPNetwork.new, IPNetwork.normalize_network_address, hp,
      Bool.false_eq_true, if_false]
    rw [if_neg (show ¬ (32 - s > 32) by omega), h32p, hmask, Nat.and_assoc,
      Nat.and_self]

theorem v6_new_eval (mval s : Nat) (hs : s ≤ 128) :
    IPNetwork.new ⟨true, mval &&&
        (if 128 - (128 - s) ≥ 128 then 0
         else (W6 - 1) - (2 ^ (128 - (128 - s)) - 1))⟩ (128 - s) =
      some ⟨⟨true, mval &&& (2 ^ 128 - 2 ^ s)⟩, 128 - s⟩ := by
  by_cases hp : 128 - s = 0
  · have hs128 : s = 128 := by omega
    subst hs128
    norm_num
    rw [IPNetwork.new]
    simp only [IPNetwork.normalize_network_address]
    norm_num
  · have h128p : 128 - (128 - s) = s := by omega
    rw [h128p]
    have hmask : (if s ≥ 128 then 0 else (W6 - 1) - (2 ^ s - 1)) =
        2 ^ 128 - 2 ^ s := by
      rw [if_neg (by omega)]
      have h1 : 1 ≤ 2 ^ s := Nat.one_le_two_pow
      have h2 : 2 ^ s ≤ 2 ^ 128 := Nat.pow_le_pow_right (by norm_num) hs
      show 2 ^ 128 - 1 - (2 ^ s - 1) = 2 ^ 128 - 2 ^ s
      omega
    rw [hmask]
    simp only [IPNetwork.new, IPNetwork.normalize_network_address, hp,
      eq_self_iff_true, if_true, if_false]
    rw [if_neg (show ¬ (128 - s > 128) by omega), h128p, hmask, Nat.and_assoc,
      Nat.and_self]

set_option maxHeartbeats 1000000 in
/-- C7.  `spanning_cidr` returns `Ok(None)` on an empty list; a
full-width host route on a single (well-formed) address; and on two or
more same-version addresses the network whose prefix length is the
address width minus the bit length of `min XOR max` and whose network
address is `min` masked to that prefix — a CIDR block that contains
every input address and such that no aligned block with a longer
prefix does, i.e. the smallest spanning CIDR (prefix length 0
included). -/
theorem spanning_cidr_spec (addresses : List IPAddress)
    (hwf : ∀ a ∈ addresses, a.WF)
    (huni : ∀ a ∈ addresses, ∀ b ∈ addresses, a.v6 = b.v6) :
    (addresses = [] → spanning_cidr addresses = some none) ∧
    (∀ x, addresses = [x] →
      spanning_cidr addresses = some (some ⟨x, if x.v6 then 128 else 32⟩)) ∧
    (∀ x y rest, addresses = x :: y :: rest →
      ∃ N mn mx, addr_min addresses = some mn ∧ addr_max addresses = some mx ∧
        spanning_cidr addresses = some (some N) ∧
        N.prefix_length =
          (if x.v6 then 128 else 32) - bitLen (mn.val ^^^ mx.val) ∧
        N.network_address.v6 = x.v6 ∧
        N.network_address.val =
          mn.val &&& maskFor (if x.v6 then 128 else 32) N.prefix_length ∧
        (∀ a ∈ addresses, N.network_address.val ≤ a.val ∧
          a.val < N.network_address.val +
            2 ^ ((if x.v6 then 128 else 32) - N.prefix_length)) ∧
        (∀ q A, q ≤ (if x.v6 then 128 else 32) →
          2 ^ ((if x.v6 then 128 else 32) - q) ∣ A →
          (∀ a ∈ addresses, A ≤ a.val ∧
            a.val < A + 2 ^ ((if x.v6 then 128 else 32) - q)) →
          q ≤ N.prefix_length)) := by
  refine ⟨?_, ?_, ?_⟩
  · intro h
    subst h
    rfl
  · intro x h
    subst h
    have hx : x.val ≤ x.maxVal := hwf x (List.mem_cons_self x [])
    rcases x with ⟨xv6, xval⟩
    cases xv6
    · have hxlt : xval < 2 ^ 32 := by
        simp [IPAddress.maxVal, W4] at hx
        omega
      show (IPNetwork.new ⟨false, xval⟩ 32).map some = _
      rw [IPNetwork.new]
      simp only [IPNetwork.normalize_network_address]
      norm_num
      exact Nat.and_pow_two_sub_one_of_lt_two_pow hxlt
    · have hxlt : xval < 2 ^ 128 := by
        simp [IPAddress.maxVal, W6] at hx
        omega
      show (IPNetwork.new ⟨true, xval⟩ 128).map some = _
      rw [IPNetwork.new]
      simp only [IPNetwork.normalize_network_address]
      norm_num
      exact Nat.and_pow_two_sub_one_of_lt_two_pow hxlt
  · intro x y rest h
    subst h
    have huni' : ∀ a ∈ x :: y :: rest, a.v6 = x.v6 :=
      fun a ha => huni a ha x (List.mem_cons_self x (y :: rest))
    obtain ⟨mn, hmn, hmnmem, hmntag, hmnle⟩ := addr_min_spec x (y :: rest) huni'
    obtain ⟨mx, hmx, hmxmem, hmxtag, hmxge⟩ := addr_max_spec x (y :: rest) huni'
    have hmnmx : mn.val ≤ mx.val :=
      le_trans (hmnle x (List.mem_cons_self x (y :: rest)))
        (hmxge x (List.mem_cons_self x (y :: rest)))
    have hall : (x :: y :: rest).all (fun a => a.sameType x) = true := by
      rw [List.all_eq_true]
      intro a ha
      simp [IPAddress.sameType, huni' a ha]
    cases hxv : x.v6 with
    | false =>
      have hmnlt : mn.val < 2 ^ 32 := by
        have hw := hwf mn hmnmem
        simp [IPAddress.WF, IPAddress.maxVal, hmntag.trans hxv, W4] at hw
        omega
      have hmxlt : mx.val < 2 ^ 32 := by
        have hw := hwf mx hmxmem
        simp [IPAddress.WF, IPAddress.maxVal, hmxtag.trans hxv, W4] at hw
        omega
      obtain ⟨hsw, hcont, hminimal⟩ := span_core 32 mn.val mx.val hmnlt hmxlt
      have heval : spanning_cidr (x :: y :: rest) =
          (IPNetwork.new ⟨false, mn.val &&&
            (((W4 - 1) <<< ((32 - (if mn.val ^^^ mx.val = 0 then 32 else
               32 - (32 - (32 - bitLen (mn.val ^^^ mx.val))))) % 32)) % W4)⟩
            (if mn.val ^^^ mx.val = 0 then 32 else
               32 - (32 - (32 - bitLen (mn.val ^^^ mx.val))))).map some := by
        simp only [spanning_cidr, hall, hmn, hmx, hxv]
        norm_num
      have hpl : (if mn.val ^^^ mx.val = 0 then 32 else
          32 - (32 - (32 - bitLen (mn.val ^^^ mx.val)))) =
          32 - bitLen (mn.val ^^^ mx.val) := by
        by_cases h0 : mn.val ^^^ mx.val = 0
        · rw [if_pos h0, h0]
          norm_num [bitLen, bitLenAux]
        · rw [if_neg h0]
          omega
      rw [hpl, v4_new_eval mn.val (bitLen (mn.val ^^^ mx.val)) hsw]
        at heval
      refine ⟨⟨⟨false, mn.val &&& (2 ^ 32 - 2 ^ bitLen (mn.val ^^^ mx.val))⟩,
        32 - bitLen (mn.val ^^^ mx.val)⟩, mn, mx, hmn, hmx, ?_, ?_, ?_, ?_,
        ?_, ?_⟩
      · simpa using heval
      · norm_num
      · rfl
      · show mn.val &&& (2 ^ 32 - 2 ^ bitLen (mn.val ^^^ mx.val)) =
          mn.val &&& maskFor 32 (32 - bitLen (mn.val ^^^ mx.val))
        rw [maskFor, show 32 - (32 - bitLen (mn.val ^^^ mx.val)) =
          bitLen (mn.val ^^^ mx.val) by omega]
      · intro a ha
        have h := hcont a.val (hmnle a ha) (hmxge a ha)
        norm_num
        rw [show 32 - (32 - bitLen (mn.val ^^^ mx.val)) =
          bitLen (mn.val ^^^ mx.val) by omega]
        exact h
      · intro q A hq hdvd hwin
        norm_num at hq hdvd ⊢
        simp only [Bool.false_eq_true, if_false] at hwin
        exact hminimal q A hq hdvd (hwin mn hmnmem).1 (hwin mn hmnmem).2
          (hwin mx hmxmem).1 (hwin mx hmxmem).2
    | true =>
      have hmnlt : mn.val < 2 ^ 128 := by
        have hw := hwf mn hmnmem
        simp [IPAddress.WF, IPAddress.maxVal, hmntag.trans hxv, W6] at hw
        omega
      have hmxlt : mx.val < 2 ^ 128 := by
        have hw := hwf mx hmxmem
        simp [IPAddress.WF, IPAddress.maxVal, hmxtag.trans hxv, W6] at hw
        omega
      obtain ⟨hsw, hcont, hminimal⟩ := span_core 128 mn.val mx.val hmnlt hmxlt
      have heval : spanning_cidr (x :: y :: rest) =
          (IPNetwork.new ⟨true, mn.val &&&
            (if 128 - (if mn.val ^^^ mx.val = 0 then 128 else
                128 - (128 - (128 - bitLen (mn.val ^^^ mx.val)))) ≥ 128 then 0
             else (W6 - 1) - (2 ^ (128 - (if mn.val ^^^ mx.val = 0 then 128 else
                128 - (128 - (128 - bitLen (mn.val ^^^ mx.val))))) - 1))⟩
            (if mn.val ^^^ mx.val = 0 then 128 else
               128 - (128 - (128 - bitLen (mn.val ^^^ mx.val))))).map some := by
        simp only [spanning_cidr, hall, hmn, hmx, hxv]
        norm_num
      have hpl : (if mn.val ^^^ mx.val = 0 then 128 else
          128 - (128 - (128 - bitLen (mn.val ^^^ mx.val)))) =
          128 - bitLen (mn.val ^^^ mx.val) := by
        by_cases h0 : mn.val ^^^ mx.val = 0
        · rw [if_pos h0, h0]
          norm_num [bitLen, bitLenAux]
        · rw [if_neg h0]
          omega
      rw [hpl, v6_new_eval mn.val (bitLen (mn.val ^^^ mx.val)) hsw]
        at heval
      refine ⟨⟨⟨true, mn.val &&& (2 ^ 128 - 2 ^ bitLen (mn.val ^^^ mx.val))⟩,
        128 - bitLen (mn.val ^^^ mx.val)⟩, mn, mx, hmn, hmx, ?_, ?_, ?_, ?_,
        ?_, ?_⟩
      · simpa using heval
      · norm_num
      · rfl
      · show mn.val &&& (2 ^ 128 - 2 ^ bitLen (mn.val ^^^ mx.val)) =
          mn.val &&& maskFor 128 (128 - bitLen (mn.val ^^^ mx.val))
        rw [maskFor, show 128 - (128 - bitLen (mn.val ^^^ mx.val)) =
          bitLen (mn.val ^^^ mx.val) by omega]
      · intro a ha
        have h := hcont a.val (hmnle a ha) (hmxge a ha)
        norm_num
        rw [show 128 - (128 - bitLen (mn.val ^^^ mx.val)) =
          bitLen (mn.val ^^^ mx.val) by omega]
        exact h
      · intro q A hq hdvd hwin
        norm_num at hq hdvd ⊢
        simp only [eq_self_iff_true, if_true] at hwin
        exact hminimal q A hq hdvd (hwin mn hmnmem).1 (hwin mn hmnmem).2
          (hwin mx hmxmem).1 (hwin mx hmxmem).2


/-- Witness for C7 at the concrete pair `[8, 11]` (IPv4): the
hypotheses are discharged by `decide`. -/
theorem spanning_cidr_spec_witness :
    ∃ N mn mx,
      addr_min [(⟨false, 8⟩ : IPAddress), ⟨false, 11⟩] = some mn ∧
      addr_max [(⟨false, 8⟩ : IPAddress), ⟨false, 11⟩] = some mx ∧
      spanning_cidr [(⟨false, 8⟩ : IPAddress), ⟨false, 11⟩] = some (some N) ∧
      N.prefix_length = 32 - bitLen (mn.val ^^^ mx.val) ∧
      N.network_address.v6 = false ∧
      N.network_address.val = mn.val &&& maskFor 32 N.prefix_length ∧
      (∀ a ∈ [(⟨false, 8⟩ : IPAddress), ⟨false, 11⟩],
        N.network_address.val ≤ a.val ∧
          a.val < N.network_address.val + 2 ^ (32 - N.prefix_length)) ∧
      (∀ q A, q ≤ 32 → 2 ^ (32 - q) ∣ A →
        (∀ a ∈ [(⟨false, 8⟩ : IPAddress), ⟨false, 11⟩],
          A ≤ a.val ∧ a.val < A + 2 ^ (32 - q)) → q ≤ N.prefix_length) :=
  (spanning_cidr_spec [⟨false, 8⟩, ⟨false, 11⟩] (by decide) (by decide)).2.2
    ⟨false, 8⟩ ⟨false, 11⟩ [] rfl

end Netaddr
